import Mathlib

/-!
Verification of `catmaid/algorithms/morphology.py` against its
natural-language specification.  The Python source is shallowly embedded:
3D points become a structure of rationals, NumPy float arithmetic becomes
exact rational arithmetic, and each algorithm is translated function by
function.  Transcendental quantities the source derives from `sigma` and
`min_effect` (square roots, exponentials, logarithms) are passed as
parameters and characterised by hypotheses (`0 ≤ l ∧ l * l = sqdist p q`
pins `l` to the Euclidean length), so every definition stays executable.
-/

set_option autoImplicit false

/-- A 3D point with rational coordinates, standing for one `(x, y, z)`
coordinate triple of the Python code. -/
structure Pt where
  x : ℚ
  y : ℚ
  z : ℚ
deriving DecidableEq, Repr, Inhabited

instance : Add Pt := ⟨fun p q => ⟨p.x + q.x, p.y + q.y, p.z + q.z⟩⟩

instance : Sub Pt := ⟨fun p q => ⟨p.x - q.x, p.y - q.y, p.z - q.z⟩⟩

instance : SMul ℚ Pt := ⟨fun c p => ⟨c * p.x, c * p.y, c * p.z⟩⟩

/-- The origin, used as the default element for list lookups. -/
def ptZero : Pt := ⟨0, 0, 0⟩

theorem Pt.add_def (p q : Pt) : p + q = ⟨p.x + q.x, p.y + q.y, p.z + q.z⟩ := rfl

theorem Pt.sub_def (p q : Pt) : p - q = ⟨p.x - q.x, p.y - q.y, p.z - q.z⟩ := rfl

theorem Pt.smul_def (c : ℚ) (p : Pt) : c • p = ⟨c * p.x, c * p.y, c * p.z⟩ := rfl

/-- Squared Euclidean distance between two points: the quantity
`sum((p0[k] - p1[k]) ** 2 for k in xyz)` computed throughout the source
before taking `** 0.5`. -/
def sqdist (p q : Pt) : ℚ :=
  (p.x - q.x) ^ 2 + (p.y - q.y) ^ 2 + (p.z - q.z) ^ 2

theorem sqdist_comm (p q : Pt) : sqdist p q = sqdist q p := by
  simp only [sqdist]; ring

/-- Absolute value on ℚ, written out so that the kernel can evaluate
it (`numpy.abs` on one coordinate). -/
def rabs (q : ℚ) : ℚ := if q < 0 then -q else q

theorem rabs_nonneg (q : ℚ) : 0 ≤ rabs q := by
  unfold rabs
  split <;> linarith

/-- L1 distance between two points: `numpy.abs(a - b).sum()` on a
coordinate triple, as used by `find_nearby_points` for its step sizes. -/
def l1dist (p q : Pt) : ℚ :=
  rabs (q.x - p.x) + rabs (q.y - p.y) + rabs (q.z - p.z)

theorem l1dist_nonneg (p q : Pt) : 0 ≤ l1dist p q := by
  have hx := rabs_nonneg (q.x - p.x)
  have hy := rabs_nonneg (q.y - p.y)
  have hz := rabs_nonneg (q.z - p.z)
  simp only [l1dist]; linarith

/-! ## `find_nearby_points` (morphology.py lines 498-555)

`dpts = numpy.abs(pts[1:] - pts[:-1]).sum(axis=1)` precomputes the L1 norm
of each consecutive step.  The forward walk starts at `j = 1`, adds
`dpts[i+j-1]` and keeps index `i+j` while the running sum stays strictly
below `md2 = max_dist * max_dist`, stopping at the first index where it
does not; the backward walk mirrors this with `dpts[i+j]` for negative
`j`.  `include_point` prepends the point's own index. `return_value=True`
merely replaces each collected index by `pts[index]`. -/

/-- The list `dpts` of consecutive-point step sizes (L1 norms). -/
def stepSizes (pts : List Pt) : List ℚ :=
  (pts.zip pts.tail).map (fun pr => l1dist pr.1 pr.2)

theorem stepSizes_nonneg (pts : List Pt) :
    ∀ q ∈ stepSizes pts, 0 ≤ q := by
  intro q hq
  simp only [stepSizes, List.mem_map] at hq
  obtain ⟨pr, _, rfl⟩ := hq
  exact l1dist_nonneg pr.1 pr.2

theorem stepSizes_length (pts : List Pt) :
    (stepSizes pts).length = pts.length - 1 := by
  simp only [stepSizes, List.length_map, List.length_zip, List.length_tail]
  omega

/-- The forward walk of `find_nearby_points`: `m` is the candidate index
`i + j`, `d` the distance accumulated so far.  It reads `dpts[m-1]`,
keeps `m` while the sum stays below `md2` and `m < len`, else stops.
The walk is bounded by `len`, so a structural fuel argument (always
called with fuel `len`) makes the recursion computable. -/
def fwd (dpts : List ℚ) (md2 : ℚ) (len : ℕ) : ℕ → ℕ → ℚ → List ℕ
  | 0, _, _ => []
  | fuel + 1, m, d =>
    if m < len then
      let d' := d + dpts.getD (m - 1) 0
      if d' < md2 then m :: fwd dpts md2 len fuel (m + 1) d' else []
    else []

/-- The backward walk of `find_nearby_points`: `m` is the candidate index
`i + j` (descending), `d` the accumulated distance; it reads `dpts[m]`,
keeps `m` while the sum stays below `md2`, and stops after index 0. -/
def bwd (dpts : List ℚ) (md2 : ℚ) : ℕ → ℚ → List ℕ
  | 0, d =>
    if d + dpts.getD 0 0 < md2 then [0] else []
  | m' + 1, d =>
    if d + dpts.getD (m' + 1) 0 < md2 then
      (m' + 1) :: bwd dpts md2 m' (d + dpts.getD (m' + 1) 0)
    else []

/-- `find_nearby_points(pts, max_dist, return_value=False, include_point)`:
per point index `i`, the point's own index (when `include_point`), the
indices found by the forward walk, then those of the backward walk. -/
def find_nearby_points (pts : List Pt) (max_dist : ℚ) (include_point : Bool) :
    List (List ℕ) :=
  let md2 := max_dist * max_dist
  let dpts := stepSizes pts
  (List.range pts.length).map (fun i =>
    (if include_point then [i] else []) ++
      fwd dpts md2 pts.length pts.length (i + 1) 0 ++
      (if i = 0 then [] else bwd dpts md2 (i - 1) 0))

/-- The `return_value=True` variant: each collected index is replaced by
the corresponding point (`rf = lambda i: pts[i]`). -/
def find_nearby_points_vals (pts : List Pt) (max_dist : ℚ)
    (include_point : Bool) : List (List Pt) :=
  (find_nearby_points pts max_dist include_point).map
    (fun idxs => idxs.map (fun j => pts.getD j ptZero))

/-- Cumulative path distance: the sum of the step sizes with indices in
`[a, b)`. -/
def cumFrom (dpts : List ℚ) (a b : ℕ) : ℚ :=
  ((dpts.drop a).take (b - a)).sum

/-- Cumulative path distance between indices `i` and `j`, in either
order: the sum of the L1 step sizes strictly between them. -/
def cumL1 (dpts : List ℚ) (i j : ℕ) : ℚ :=
  cumFrom dpts (min i j) (max i j)

theorem cumFrom_self (dpts : List ℚ) (a : ℕ) : cumFrom dpts a a = 0 := by
  simp [cumFrom]

theorem cumFrom_nonneg (dpts : List ℚ) (hnn : ∀ q ∈ dpts, 0 ≤ q) (a b : ℕ) :
    0 ≤ cumFrom dpts a b := by
  apply List.sum_nonneg
  intro q hq
  exact hnn q (List.mem_of_mem_drop (List.mem_of_mem_take hq))

theorem cumFrom_add (dpts : List ℚ) (a b c : ℕ) (hab : a ≤ b) (hbc : b ≤ c) :
    cumFrom dpts a c = cumFrom dpts a b + cumFrom dpts b c := by
  unfold cumFrom
  have h1 : c - a = (b - a) + (c - b) := by omega
  rw [h1, List.take_add, List.sum_append, List.drop_drop]
  have h2 : a + (b - a) = b := by omega
  rw [h2]

theorem cumFrom_mono (dpts : List ℚ) (hnn : ∀ q ∈ dpts, 0 ≤ q)
    (a b c : ℕ) (hab : a ≤ b) (hbc : b ≤ c) :
    cumFrom dpts a b ≤ cumFrom dpts a c := by
  rw [cumFrom_add dpts a b c hab hbc]
  have := cumFrom_nonneg dpts hnn b c
  linarith

theorem cumFrom_mono_left (dpts : List ℚ) (hnn : ∀ q ∈ dpts, 0 ≤ q)
    (a b c : ℕ) (hab : a ≤ b) (hbc : b ≤ c) :
    cumFrom dpts b c ≤ cumFrom dpts a c := by
  rw [cumFrom_add dpts a b c hab hbc]
  have := cumFrom_nonneg dpts hnn a b
  linarith

theorem cumFrom_succ (dpts : List ℚ) (a b : ℕ) (hab : a ≤ b)
    (hb : b < dpts.length) :
    cumFrom dpts a (b + 1) = cumFrom dpts a b + dpts.getD b 0 := by
  rw [cumFrom_add dpts a b (b + 1) hab (by omega)]
  congr 1
  unfold cumFrom
  have h1 : b + 1 - b = 1 := by omega
  rw [h1]
  have h2 : dpts.drop b = dpts.getD b 0 :: dpts.drop (b + 1) := by
    rw [List.getD_eq_getElem?_getD]
    rw [List.drop_eq_getElem_cons hb]
    simp [hb]
  rw [h2]
  simp

theorem fwd_mem_fuel (dpts : List ℚ) (md2 : ℚ) (len : ℕ)
    (hnn : ∀ q ∈ dpts, 0 ≤ q) (hlen : len ≤ dpts.length + 1) (i : ℕ) :
    ∀ fuel m d, len - m ≤ fuel → i < m → d = cumFrom dpts i (m - 1) →
      ∀ q, (q ∈ fwd dpts md2 len fuel m d ↔
        m ≤ q ∧ q < len ∧ cumFrom dpts i q < md2) := by
  intro fuel
  induction fuel with
  | zero =>
    intro m d hfm him hd q
    have hml : ¬ m < len := by omega
    simp only [fwd, List.not_mem_nil, false_iff]
    intro hc
    omega
  | succ f ihf =>
    intro m d hfm him hd q
    rw [fwd]
    by_cases hml : m < len
    · simp only [hml, if_true]
      have hm1 : m - 1 < dpts.length := by omega
      have hd' : d + dpts.getD (m - 1) 0 = cumFrom dpts i m := by
        have h1 : (m - 1) + 1 = m := by omega
        rw [hd, ← cumFrom_succ dpts i (m - 1) (by omega) hm1, h1]
      by_cases hcmp : d + dpts.getD (m - 1) 0 < md2
      · simp only [hcmp, if_true, List.mem_cons]
        have hnext : d + dpts.getD (m - 1) 0 = cumFrom dpts i (m + 1 - 1) := by
          simpa using hd'
        rw [ihf (m + 1) (d + dpts.getD (m - 1) 0) (by omega) (by omega) hnext q]
        constructor
        · rintro (rfl | ⟨h1, h2, h3⟩)
          · exact ⟨le_refl _, hml, by rw [← hd']; exact hcmp⟩
          · exact ⟨by omega, h2, h3⟩
        · rintro ⟨h1, h2, h3⟩
          by_cases hq : q = m
          · left; exact hq
          · right; exact ⟨by omega, h2, h3⟩
      · simp only [hcmp, if_false, List.not_mem_nil, false_iff]
        rintro ⟨h1, h2, h3⟩
        have hmono : cumFrom dpts i m ≤ cumFrom dpts i q :=
          cumFrom_mono dpts hnn i m q (by omega) h1
        rw [← hd'] at hmono
        have := not_lt.mp hcmp
        linarith
    · simp only [hml, if_false, List.not_mem_nil, false_iff]
      intro hc
      omega

theorem fwd_mem (dpts : List ℚ) (md2 : ℚ) (len : ℕ)
    (hnn : ∀ q ∈ dpts, 0 ≤ q) (hlen : len ≤ dpts.length + 1) (i : ℕ) (q : ℕ) :
    q ∈ fwd dpts md2 len len (i + 1) 0 ↔
      i + 1 ≤ q ∧ q < len ∧ cumFrom dpts i q < md2 := by
  have h0 : (0 : ℚ) = cumFrom dpts i (i + 1 - 1) := by
    simp [cumFrom_self]
  exact fwd_mem_fuel dpts md2 len hnn hlen i len (i + 1) 0 (by omega) (by omega)
    h0 q

theorem bwd_mem (dpts : List ℚ) (md2 : ℚ)
    (hnn : ∀ q ∈ dpts, 0 ≤ q) (i : ℕ) (hi : i ≤ dpts.length) :
    ∀ m d, m < i → d = cumFrom dpts (m + 1) i →
      ∀ q, (q ∈ bwd dpts md2 m d ↔ q ≤ m ∧ cumFrom dpts q i < md2) := by
  intro m
  induction m with
  | zero =>
    intro d hmi hd q
    have hd' : d + dpts.getD 0 0 = cumFrom dpts 0 i := by
      rw [hd, cumFrom_add dpts 0 1 i (by omega) (by omega)]
      have h1 : cumFrom dpts 0 1 = dpts.getD 0 0 := by
        have := cumFrom_succ dpts 0 0 (le_refl 0) (by omega)
        simpa [cumFrom_self] using this
      rw [h1]
      ring
    rw [bwd]
    by_cases hcmp : d + dpts.getD 0 0 < md2
    · simp only [hcmp, if_true, List.mem_singleton]
      constructor
      · rintro rfl
        exact ⟨le_refl _, by rw [← hd']; exact hcmp⟩
      · rintro ⟨h1, _⟩
        omega
    · simp only [hcmp, if_false, List.not_mem_nil, false_iff]
      rintro ⟨h1, h2⟩
      have hq0 : q = 0 := by omega
      subst hq0
      rw [← hd'] at h2
      exact hcmp h2
  | succ m' ihm =>
    intro d hmi hd q
    have hmlen : m' + 1 < dpts.length := by omega
    have hd' : d + dpts.getD (m' + 1) 0 = cumFrom dpts (m' + 1) i := by
      rw [hd, cumFrom_add dpts (m' + 1) (m' + 2) i (by omega) (by omega)]
      have h1 : cumFrom dpts (m' + 1) (m' + 2) = dpts.getD (m' + 1) 0 := by
        have := cumFrom_succ dpts (m' + 1) (m' + 1) (le_refl _) hmlen
        simpa [cumFrom_self] using this
      rw [h1]
      ring
    rw [bwd]
    by_cases hcmp : d + dpts.getD (m' + 1) 0 < md2
    · simp only [hcmp, if_true, List.mem_cons]
      rw [ihm (d + dpts.getD (m' + 1) 0) (by omega) hd' q]
      constructor
      · rintro (rfl | ⟨h1, h2⟩)
        · exact ⟨le_refl _, by rw [← hd']; exact hcmp⟩
        · exact ⟨by omega, h2⟩
      · rintro ⟨h1, h2⟩
        by_cases hq : q = m' + 1
        · left; exact hq
        · right; exact ⟨by omega, h2⟩
    · simp only [hcmp, if_false, List.not_mem_nil, false_iff]
      rintro ⟨h1, h2⟩
      have hmono : cumFrom dpts (m' + 1) i ≤ cumFrom dpts q i :=
        cumFrom_mono_left dpts hnn q (m' + 1) i h1 (by omega)
      rw [← hd'] at hmono
      have := not_lt.mp hcmp
      linarith

theorem map_range_getD {α : Type} [Inhabited α] (n : ℕ) (f : ℕ → α) (i : ℕ)
    (d : α) (hi : i < n) : ((List.range n).map f).getD i d = f i := by
  rw [List.getD_eq_getElem?_getD, List.getElem?_map, List.getElem?_range hi]
  rfl

theorem find_nearby_points_getD (pts : List Pt) (max_dist : ℚ) (inc : Bool)
    (i : ℕ) (hi : i < pts.length) :
    (find_nearby_points pts max_dist inc).getD i [] =
      (if inc then [i] else []) ++
        fwd (stepSizes pts) (max_dist * max_dist) pts.length pts.length
          (i + 1) 0 ++
        (if i = 0 then []
         else bwd (stepSizes pts) (max_dist * max_dist) (i - 1) 0) := by
  unfold find_nearby_points
  exact map_range_getD pts.length _ i [] hi

/-- Claim C2: in `find_nearby_points(points, max_dist)`, the step sizes
between consecutive points are L1 norms, and index `j` is collected as a
neighbor of index `i` exactly when the cumulative sum of those step
sizes between `i` and `j` is strictly less than `max_dist * max_dist`
(the squared threshold), the forward and backward walks each stopping at
the first index where the sum reaches that threshold; `include_point`
additionally keeps `i` itself. -/
theorem find_nearby_points_spec (pts : List Pt) (max_dist : ℚ) (inc : Bool)
    (i j : ℕ) (hi : i < pts.length) (hj : j < pts.length) :
    j ∈ (find_nearby_points pts max_dist inc).getD i [] ↔
      (inc = true ∧ j = i) ∨
        (j ≠ i ∧ cumL1 (stepSizes pts) i j < max_dist * max_dist) := by
  have hnn := stepSizes_nonneg pts
  have hlen : pts.length ≤ (stepSizes pts).length + 1 := by
    rw [stepSizes_length]
    omega
  rw [find_nearby_points_getD pts max_dist inc i hi]
  simp only [List.mem_append]
  constructor
  · rintro ((hbase | hfwd) | hbwd)
    · rcases inc with _ | _
      · simp at hbase
      · simp only [if_true] at hbase
        rw [List.mem_singleton] at hbase
        exact Or.inl ⟨rfl, hbase⟩
    · rw [fwd_mem (stepSizes pts) _ pts.length hnn hlen i j] at hfwd
      refine Or.inr ⟨by omega, ?_⟩
      have hmm : min i j = i ∧ max i j = j := by
        constructor <;> omega
      rw [cumL1, hmm.1, hmm.2]
      exact hfwd.2.2
    · by_cases hi0 : i = 0
      · simp only [hi0, if_true, List.not_mem_nil] at hbwd
      · simp only [hi0, if_false] at hbwd
        have hilen : i ≤ (stepSizes pts).length := by
          rw [stepSizes_length]
          omega
        have h0 : (0 : ℚ) = cumFrom (stepSizes pts) ((i - 1) + 1) i := by
          have he : (i - 1) + 1 = i := by omega
          rw [he, cumFrom_self]
        rw [bwd_mem (stepSizes pts) _ hnn i hilen (i - 1) 0 (by omega) h0 j]
          at hbwd
        refine Or.inr ⟨by omega, ?_⟩
        have hmm : min i j = j ∧ max i j = i := by
          constructor <;> omega
        rw [cumL1, hmm.1, hmm.2]
        exact hbwd.2
  · rintro (⟨hinc, rfl⟩ | ⟨hne, hcum⟩)
    · left; left
      simp [hinc]
    · by_cases hij : i < j
      · left; right
        rw [fwd_mem (stepSizes pts) _ pts.length hnn hlen i j]
        have hmm : min i j = i ∧ max i j = j := by
          constructor <;> omega
        rw [cumL1, hmm.1, hmm.2] at hcum
        exact ⟨by omega, hj, hcum⟩
      · right
        have hji : j < i := by omega
        have hi0 : ¬ i = 0 := by omega
        simp only [hi0, if_false]
        have hilen : i ≤ (stepSizes pts).length := by
          rw [stepSizes_length]
          omega
        have h0 : (0 : ℚ) = cumFrom (stepSizes pts) ((i - 1) + 1) i := by
          have he : (i - 1) + 1 = i := by omega
          rw [he, cumFrom_self]
        rw [bwd_mem (stepSizes pts) _ hnn i hilen (i - 1) 0 (by omega) h0 j]
        have hmm : min i j = j ∧ max i j = i := by
          constructor <;> omega
        rw [cumL1, hmm.1, hmm.2] at hcum
        exact ⟨by omega, hcum⟩

/-- Concrete points used by the `find_nearby_points` witness. -/
def ptsW : List Pt := [⟨0, 0, 0⟩, ⟨3, 0, 0⟩, ⟨30, 0, 0⟩]

/-- Witness for C2 at a concrete input. -/
theorem find_nearby_points_spec_witness :
    (0 : ℕ) < ptsW.length ∧ (1 : ℕ) < ptsW.length ∧
      ((1 : ℕ) ∈ (find_nearby_points ptsW 4 false).getD 0 [] ↔
        (false = true ∧ 1 = 0) ∨
          ((1 : ℕ) ≠ 0 ∧ cumL1 (stepSizes ptsW) 0 1 < 4 * 4)) :=
  ⟨by decide, by decide,
    find_nearby_points_spec ptsW 4 false 0 1 (by decide) (by decide)⟩

/-! ## Per-edge emission of `resampled_node_array` (morphology.py 162-193)

For each tree edge `(start, end)` the walker computes the Euclidean
length `l = (sum((sn[k]-en[k])**2))**0.5`, and either emits the start
point alone (`l < distance`) or runs the loop
`for i in xrange(breaks): nodes.append(origin); origin += slope * scale`
followed by a final `nodes.append(origin)`, with `scale = distance / l`
and `breaks = int(l / distance)`.  The square root is irrational, so the
embedding receives `l` as a parameter; the claim's theorem pins it to
the true edge length with the hypotheses `0 ≤ l` and `l * l = sqdist`. -/

/-- The emission loop: appends `origin`, advances it by `scale • slope`,
`breaks` times, then appends the final `origin`. -/
def emitLoop (scale : ℚ) (slope : Pt) : ℕ → Pt → List Pt
  | 0, origin => [origin]
  | k + 1, origin => origin :: emitLoop scale slope k (origin + scale • slope)

/-- The points emitted for one tree edge by `resampled_node_array`. -/
def resampledNodeStep (sn en : Pt) (dist l : ℚ) : List Pt :=
  if l < dist then [sn]
  else
    emitLoop (dist / l) (en - sn) (l / dist).floor.toNat sn

theorem emitLoop_eq_map (scale : ℚ) (slope : Pt) :
    ∀ (k : ℕ) (origin : Pt),
      emitLoop scale slope k origin =
        (List.range (k + 1)).map
          (fun j : ℕ => origin + ((j : ℚ) * scale) • slope) := by
  intro k
  induction k with
  | zero =>
    intro origin
    simp only [emitLoop, List.range_succ, List.range_zero, List.nil_append,
      List.map_cons, List.map_nil, Nat.cast_zero, zero_mul]
    congr 1
    cases origin
    cases slope
    simp [Pt.add_def, Pt.smul_def]
  | succ k ih =>
    intro origin
    rw [emitLoop, ih (origin + scale • slope)]
    have hrange : List.range (k + 1 + 1) = 0 :: (List.range (k + 1)).map Nat.succ :=
      List.range_succ_eq_map (k + 1)
    rw [hrange, List.map_cons, List.map_map]
    congr 1
    · cases origin
      cases slope
      simp [Pt.add_def, Pt.smul_def]
    · apply List.map_congr_left
      intro j _
      simp only [Function.comp_apply]
      cases origin
      cases slope
      simp only [Pt.add_def, Pt.smul_def, Nat.cast_succ]
      congr 1 <;> ring

/-- Claim C3: for a tree edge `(sn, en)` of Euclidean length `l`
processed by `resampled_node_array` with threshold `dist`: if `l < dist`
only the start point is emitted; if `l ≥ dist` exactly
`floor(l / dist) + 1` points are emitted, the `j`-th being the start
point advanced `j` times by the fixed increment `(dist / l) • (en - sn)`,
so the last is `sn + floor(l / dist) • (dist / l) • (en - sn)`. -/
theorem resampledNodeStep_spec (sn en : Pt) (dist l : ℚ)
    (hD : 0 < dist) (hl : 0 ≤ l) (hll : l * l = sqdist sn en) :
    (l < dist → resampledNodeStep sn en dist l = [sn]) ∧
      (dist ≤ l →
        resampledNodeStep sn en dist l =
          (List.range ((l / dist).floor.toNat + 1)).map
            (fun j : ℕ => sn + ((j : ℚ) * (dist / l)) • (en - sn))) := by
  constructor
  · intro hlt
    rw [resampledNodeStep, if_pos hlt]
  · intro hge
    rw [resampledNodeStep, if_neg (not_lt.mpr hge)]
    exact emitLoop_eq_map (dist / l) (en - sn) (l / dist).floor.toNat sn

/-- Witness for C3 at a concrete edge of length 5 with threshold 2. -/
theorem resampledNodeStep_spec_witness :
    (0 : ℚ) < 2 ∧ (0 : ℚ) ≤ 5 ∧
      (5 : ℚ) * 5 = sqdist ⟨0, 0, 0⟩ ⟨5, 0, 0⟩ ∧
      ((5 : ℚ) < 2 → resampledNodeStep ⟨0, 0, 0⟩ ⟨5, 0, 0⟩ 2 5 = [⟨0, 0, 0⟩]) ∧
      ((2 : ℚ) ≤ 5 →
        resampledNodeStep ⟨0, 0, 0⟩ ⟨5, 0, 0⟩ 2 5 =
          (List.range (((5 : ℚ) / 2).floor.toNat + 1)).map
            (fun j : ℕ => (⟨0, 0, 0⟩ : Pt) +
              ((j : ℚ) * (2 / 5)) • ((⟨5, 0, 0⟩ : Pt) - ⟨0, 0, 0⟩))) :=
  ⟨by norm_num, by norm_num, by norm_num [sqdist],
    (resampledNodeStep_spec ⟨0, 0, 0⟩ ⟨5, 0, 0⟩ 2 5 (by norm_num) (by norm_num)
      (by norm_num [sqdist])).1,
    (resampledNodeStep_spec ⟨0, 0, 0⟩ ⟨5, 0, 0⟩ 2 5 (by norm_num) (by norm_num)
      (by norm_num [sqdist])).2⟩

/-! ## Per-edge subdivision of `resampled_edge_array` (morphology.py 84-112)

For each directed edge `(u, v)` the source computes
`d = numpy.linalg.norm(vp - up)`; if `d > distance` it walks
`delta = distance, 2*distance, ...` while `delta < d`, emitting the
sub-edge `(s, n * delta + up)` with `n = (vp - up) / d` and sliding `s`,
then emits the closing sub-edge `(s, vp)`; otherwise it emits `(up, vp)`
unchanged.  As `d` is a square root, it is again passed as a parameter
pinned by `0 ≤ d ∧ d * d = sqdist up vp` in the claim's theorem; the
unit direction `n` is recovered as `(1/d) • (vp - up)`. -/

/-- The subdivision loop of `resampled_edge_array`.  `nrm` is the unit
direction, `s` the running start point and `delta` the running offset;
the proof argument `hD` bounds the loop just as `delta += distance`
does in the source. -/
def edgeLoop (up vp nrm : Pt) (d dist : ℚ) (hD : 0 < dist) :
    Pt → ℚ → List (Pt × Pt)
  | s, delta =>
    if h : delta < d then
      (s, delta • nrm + up) ::
        edgeLoop up vp nrm d dist hD (delta • nrm + up) (delta + dist)
    else [(s, vp)]
termination_by _ delta => (⌈(d - delta) / dist⌉).toNat
decreasing_by
  have hne : dist ≠ 0 := ne_of_gt hD
  have h1 : (d - (delta + dist)) / dist = (d - delta) / dist - 1 := by
    field_simp
    ring
  rw [h1, Int.ceil_sub_one]
  have h2 : 0 < (d - delta) / dist := div_pos (by linarith) hD
  have h3 : (0 : ℤ) < ⌈(d - delta) / dist⌉ := Int.ceil_pos.mpr h2
  omega

/-- The sub-edges emitted for one directed edge by
`resampled_edge_array`. -/
def resampledEdgeSub (up vp : Pt) (dist d : ℚ) (hD : 0 < dist) :
    List (Pt × Pt) :=
  if d > dist then
    edgeLoop up vp ((1 / d) • (vp - up)) d dist hD up dist
  else [(up, vp)]

/-- The point `delta` units along the edge direction from `up`:
`n * delta + up` in the source. -/
def edgePt (up nrm : Pt) (delta : ℚ) : Pt := delta • nrm + up

theorem edgePt_zero (up nrm : Pt) : edgePt up nrm 0 = up := by
  cases up
  cases nrm
  simp [edgePt, Pt.smul_def, Pt.add_def]

theorem edgePt_full (up vp : Pt) (d : ℚ) (hd : d ≠ 0) :
    edgePt up ((1 / d) • (vp - up)) d = vp := by
  cases up
  cases vp
  simp only [edgePt, Pt.smul_def, Pt.sub_def, Pt.add_def, Pt.mk.injEq]
  refine ⟨?_, ?_, ?_⟩ <;> field_simp

theorem sqdist_edgePt (up nrm : Pt) (a b : ℚ) :
    sqdist (edgePt up nrm a) (edgePt up nrm b) =
      (a - b) ^ 2 * (nrm.x ^ 2 + nrm.y ^ 2 + nrm.z ^ 2) := by
  cases up
  cases nrm
  simp only [edgePt, sqdist, Pt.smul_def, Pt.add_def]
  ring

theorem nrm_sq_one (up vp : Pt) (d : ℚ) (hd : d ≠ 0)
    (hdd : d * d = sqdist up vp) :
    ((1 / d) • (vp - up)).x ^ 2 + ((1 / d) • (vp - up)).y ^ 2 +
      ((1 / d) • (vp - up)).z ^ 2 = 1 := by
  cases up
  cases vp
  simp only [Pt.smul_def, Pt.sub_def, sqdist] at hdd ⊢
  field_simp
  nlinarith [hdd]

/-- Number of loop iterations of `resampled_edge_array` for an edge of
length `d` and threshold `dist`: the number of positive multiples of
`dist` strictly below `d`. -/
def subCount (dist d : ℚ) : ℕ := (⌈d / dist⌉ - 1).toNat

theorem subCount_bounds (dist d : ℚ) (hD : 0 < dist) (hdd : dist < d) :
    1 ≤ subCount dist d ∧
      ((subCount dist d : ℚ)) * dist < d ∧
      d ≤ ((subCount dist d : ℚ) + 1) * dist := by
  have hx : (1 : ℚ) < d / dist := (one_lt_div hD).mpr hdd
  have hc1 : (1 : ℤ) < ⌈d / dist⌉ := by
    rw [Int.lt_ceil]
    exact_mod_cast hx
  have hN : ((subCount dist d : ℕ) : ℤ) = ⌈d / dist⌉ - 1 := by
    unfold subCount
    omega
  refine ⟨?_, ?_, ?_⟩
  · unfold subCount
    omega
  · have h2 : (⌈d / dist⌉ : ℚ) - 1 < d / dist := by
      have := Int.ceil_lt_add_one (d / dist)
      push_cast at this ⊢
      linarith
    have h3 : ((subCount dist d : ℕ) : ℚ) = (⌈d / dist⌉ : ℚ) - 1 := by
      exact_mod_cast hN
    rw [h3]
    calc ((⌈d / dist⌉ : ℚ) - 1) * dist < (d / dist) * dist := by
          apply mul_lt_mul_of_pos_right h2 hD
      _ = d := by field_simp
  · have h2 : d / dist ≤ (⌈d / dist⌉ : ℚ) := Int.le_ceil (d / dist)
    have h3 : ((subCount dist d : ℕ) : ℚ) + 1 = (⌈d / dist⌉ : ℚ) := by
      have h4 : ((subCount dist d : ℕ) : ℤ) + 1 = ⌈d / dist⌉ := by omega
      exact_mod_cast h4
    rw [h3]
    calc d = (d / dist) * dist := by field_simp
      _ ≤ (⌈d / dist⌉ : ℚ) * dist := by
          apply mul_le_mul_of_nonneg_right h2 (le_of_lt hD)

theorem edgeLoop_eq_fuel (up vp nrm : Pt) (d dist : ℚ) (hD : 0 < dist)
    (N : ℕ) (hNlt : ((N : ℚ)) * dist < d) (hNge : d ≤ ((N : ℚ) + 1) * dist) :
    ∀ fuel k, N - k ≤ fuel → k ≤ N →
      edgeLoop up vp nrm d dist hD (edgePt up nrm ((k : ℚ) * dist))
          (((k : ℚ) + 1) * dist) =
        ((List.range (N - k)).map (fun j : ℕ =>
          (edgePt up nrm (((k + j : ℕ) : ℚ) * dist),
           edgePt up nrm (((k + j + 1 : ℕ) : ℚ) * dist)))) ++
          [(edgePt up nrm ((N : ℚ) * dist), vp)] := by
  intro fuel
  induction fuel with
  | zero =>
    intro k hfk hkN
    have hkN' : k = N := by omega
    subst hkN'
    rw [edgeLoop]
    have hstop : ¬ ((k : ℚ) + 1) * dist < d := not_lt.mpr hNge
    simp [hstop]
  | succ f ihf =>
    intro k hfk hkN
    by_cases hkN' : k = N
    · subst hkN'
      rw [edgeLoop]
      have hstop : ¬ ((k : ℚ) + 1) * dist < d := not_lt.mpr hNge
      simp [hstop]
    · have hklt : k < N := by omega
      rw [edgeLoop]
      have hgo : ((k : ℚ) + 1) * dist < d := by
        have h1 : ((k : ℚ) + 1) ≤ (N : ℚ) := by
          have : (k : ℚ) + 1 = ((k + 1 : ℕ) : ℚ) := by push_cast; ring
          rw [this]
          exact_mod_cast hklt
        calc ((k : ℚ) + 1) * dist ≤ (N : ℚ) * dist :=
              mul_le_mul_of_nonneg_right h1 (le_of_lt hD)
          _ < d := hNlt
      rw [dif_pos hgo]
      have hdelta : ((k : ℚ) + 1) * dist + dist =
          (((k + 1 : ℕ) : ℚ) + 1) * dist := by
        push_cast
        ring
      have harg : (((k : ℚ) + 1) * dist) • nrm + up =
          edgePt up nrm (((k + 1 : ℕ) : ℚ) * dist) := by
        simp only [edgePt]
        norm_cast
      rw [harg, hdelta, ihf (k + 1) (by omega) (by omega)]
      have hrange : N - k = (N - (k + 1)) + 1 := by omega
      rw [hrange, List.range_succ_eq_map, List.map_cons, List.map_map]
      simp only [List.cons_append]
      congr 1
      congr 1
      apply List.map_congr_left
      intro j _
      simp only [Function.comp_apply, Nat.succ_eq_add_one]
      have e1 : k + 1 + j = k + (j + 1) := by omega
      rw [e1]

theorem resampledEdgeSub_eq (up vp : Pt) (dist d : ℚ) (hD : 0 < dist)
    (hgt : dist < d) :
    resampledEdgeSub up vp dist d hD =
      (List.range (subCount dist d)).map (fun j : ℕ =>
        (edgePt up ((1 / d) • (vp - up)) ((j : ℚ) * dist),
         edgePt up ((1 / d) • (vp - up)) (((j + 1 : ℕ) : ℚ) * dist))) ++
        [(edgePt up ((1 / d) • (vp - up)) ((subCount dist d : ℚ) * dist),
          vp)] := by
  obtain ⟨hN1, hNlt, hNge⟩ := subCount_bounds dist d hD hgt
  rw [resampledEdgeSub, if_pos hgt]
  have h := edgeLoop_eq_fuel up vp ((1 / d) • (vp - up)) d dist hD
    (subCount dist d) hNlt hNge (subCount dist d) 0 (by omega) (by omega)
  simp only [Nat.cast_zero, zero_mul, edgePt_zero, zero_add, one_mul,
    Nat.sub_zero] at h
  exact h

/-- Claim C4: for a directed edge `(up, vp)` of Euclidean length `d`
processed by `resampled_edge_array` with threshold `dist`: if
`d ≤ dist` the edge is emitted unchanged; if `d > dist` it becomes
consecutive sub-edges starting at `up`, each of (squared) length exactly
`dist * dist` except the last, which ends exactly at `vp`; for
`d = 3.5 * dist` there are exactly 4 sub-edges of lengths
`dist, dist, dist, dist/2` in order, summing to `d`. -/
theorem resampledEdgeSub_spec (up vp : Pt) (dist d : ℚ) (hD : 0 < dist)
    (hd0 : 0 ≤ d) (hdd : d * d = sqdist up vp) :
    (d ≤ dist → resampledEdgeSub up vp dist d hD = [(up, vp)]) ∧
    (dist < d →
      (resampledEdgeSub up vp dist d hD).length = subCount dist d + 1 ∧
      ((resampledEdgeSub up vp dist d hD).getD 0 (ptZero, ptZero)).1 = up ∧
      (∀ k, k + 1 < (resampledEdgeSub up vp dist d hD).length →
        ((resampledEdgeSub up vp dist d hD).getD k (ptZero, ptZero)).2 =
          ((resampledEdgeSub up vp dist d hD).getD (k + 1)
            (ptZero, ptZero)).1) ∧
      (∀ e ∈ (resampledEdgeSub up vp dist d hD).dropLast,
        sqdist e.1 e.2 = dist * dist) ∧
      ((resampledEdgeSub up vp dist d hD).getD (subCount dist d)
        (ptZero, ptZero)).2 = vp) ∧
    (d = (7 / 2) * dist →
      (resampledEdgeSub up vp dist d hD).length = 4 ∧
      sqdist
        ((resampledEdgeSub up vp dist d hD).getD 3 (ptZero, ptZero)).1
        ((resampledEdgeSub up vp dist d hD).getD 3 (ptZero, ptZero)).2 =
        (dist / 2) * (dist / 2) ∧
      dist + dist + dist + dist / 2 = d) := by
  have hdist_ne : dist ≠ 0 := ne_of_gt hD
  constructor
  · intro hle
    rw [resampledEdgeSub, if_neg (not_lt.mpr hle)]
  constructor
  · intro hgt
    have hd_ne : d ≠ 0 := ne_of_gt (lt_trans hD hgt)
    have hnrm := nrm_sq_one up vp d hd_ne hdd
    obtain ⟨hN1, hNlt, hNge⟩ := subCount_bounds dist d hD hgt
    have hL := resampledEdgeSub_eq up vp dist d hD hgt
    have hlen : (resampledEdgeSub up vp dist d hD).length =
        subCount dist d + 1 := by
      rw [hL]
      simp
    have hmaplen : ((List.range (subCount dist d)).map (fun j : ℕ =>
        (edgePt up ((1 / d) • (vp - up)) ((j : ℚ) * dist),
         edgePt up ((1 / d) • (vp - up)) (((j + 1 : ℕ) : ℚ) * dist)))).length =
        subCount dist d := by
      simp
    have hgetl : ∀ k, k < subCount dist d →
        (resampledEdgeSub up vp dist d hD).getD k (ptZero, ptZero) =
          (edgePt up ((1 / d) • (vp - up)) ((k : ℚ) * dist),
           edgePt up ((1 / d) • (vp - up)) (((k + 1 : ℕ) : ℚ) * dist)) := by
      intro k hk
      rw [hL, List.getD_append _ _ _ _ (by rw [hmaplen]; exact hk)]
      exact map_range_getD (subCount dist d) _ k (ptZero, ptZero) hk
    have hgetr : (resampledEdgeSub up vp dist d hD).getD (subCount dist d)
        (ptZero, ptZero) =
          (edgePt up ((1 / d) • (vp - up)) ((subCount dist d : ℚ) * dist),
           vp) := by
      rw [hL, List.getD_append_right _ _ _ _ (by rw [hmaplen])]
      rw [hmaplen]
      simp
    refine ⟨hlen, ?_, ?_, ?_, ?_⟩
    · rw [hgetl 0 (by omega)]
      simp [edgePt_zero]
    · intro k hk
      rw [hlen] at hk
      by_cases hkN : k + 1 < subCount dist d
      · rw [hgetl k (by omega), hgetl (k + 1) hkN]
      · have hkeq : k + 1 = subCount dist d := by omega
        rw [hgetl k (by omega), hkeq, hgetr]
    · intro e he
      rw [hL] at he
      rw [List.dropLast_concat] at he
      simp only [List.mem_map, List.mem_range] at he
      obtain ⟨j, _, rfl⟩ := he
      rw [sqdist_edgePt, hnrm]
      push_cast
      ring
    · rw [hgetr]
  · intro hcase
    have hgt : dist < d := by
      rw [hcase]
      linarith
    have hd_ne : d ≠ 0 := ne_of_gt (lt_trans hD hgt)
    have hnrm := nrm_sq_one up vp d hd_ne hdd
    have hdiv : d / dist = 7 / 2 := by
      rw [hcase]
      field_simp
      ring
    have hceil : ⌈d / dist⌉ = 4 := by
      rw [hdiv]
      norm_num [Int.ceil_eq_iff]
    have hN : subCount dist d = 3 := by
      unfold subCount
      rw [hceil]
      rfl
    have hL := resampledEdgeSub_eq up vp dist d hD hgt
    have hlen : (resampledEdgeSub up vp dist d hD).length =
        subCount dist d + 1 := by
      rw [hL]
      simp
    refine ⟨by rw [hlen, hN], ?_, by rw [hcase]; ring⟩
    have hmaplen : ((List.range (subCount dist d)).map (fun j : ℕ =>
        (edgePt up ((1 / d) • (vp - up)) ((j : ℚ) * dist),
         edgePt up ((1 / d) • (vp - up)) (((j + 1 : ℕ) : ℚ) * dist)))).length =
        subCount dist d := by
      simp
    have hgetr : (resampledEdgeSub up vp dist d hD).getD (subCount dist d)
        (ptZero, ptZero) =
          (edgePt up ((1 / d) • (vp - up)) ((subCount dist d : ℚ) * dist),
           vp) := by
      rw [hL, List.getD_append_right _ _ _ _ (by rw [hmaplen])]
      rw [hmaplen]
      simp
    rw [hN] at hgetr
    rw [hgetr]
    dsimp only
    have hvp' : vp = edgePt up ((1 / d) • (vp - up)) d :=
      (edgePt_full up vp d hd_ne).symm
    conv_lhs =>
      arg 2
      rw [hvp']
    rw [sqdist_edgePt, hnrm, hcase]
    push_cast
    ring

theorem twoPos : (0 : ℚ) < 2 := by norm_num

/-- Witness for C4 at the concrete edge (0,0,0)-(7,0,0) with threshold 2
(an edge of length 3.5 times the threshold). -/
theorem resampledEdgeSub_spec_witness :
    (resampledEdgeSub ⟨0, 0, 0⟩ ⟨7, 0, 0⟩ 2 7 twoPos).length = 4 ∧
      (0 : ℚ) < 2 ∧ (0 : ℚ) ≤ 7 ∧
      (7 : ℚ) * 7 = sqdist ⟨0, 0, 0⟩ ⟨7, 0, 0⟩ :=
  ⟨((resampledEdgeSub_spec ⟨0, 0, 0⟩ ⟨7, 0, 0⟩ 2 7 twoPos (by norm_num)
      (by norm_num [sqdist])).2.2 (by norm_num)).1,
    by norm_num, by norm_num, by norm_num [sqdist]⟩

/-! ## `gaussian_smooth_points` (morphology.py 558-585)

The source computes `max_dist = sqrt(-log(min_effect) * 2 * sigma**2)`
and weights `exp(-(dists ** 2 / (2 * sigma ** 2)))`.  Both are
transcendental, so the embedding is parametrised by the radius `maxDist`
and the kernel `g` applied to the squared Euclidean distance; every
theorem below holds for all values of these parameters, hence in
particular for the source's `sigma`/`min_effect`-derived values.

Lines 560-563 read: `if fix_axes is None: fix_axes = []` and otherwise
`fix_axes = [2, ]`, discarding the caller's list; the embedding keeps
the argument as `Option (List ℕ)` and reproduces exactly that
replacement. -/

/-- Write value `v` into coordinate `a` (0 = x, 1 = y, 2 = z) of a
point, `spt[fa] = v` on a NumPy length-3 vector. -/
def setAxis (p : Pt) (a : ℕ) (v : ℚ) : Pt :=
  match a with
  | 0 => ⟨v, p.y, p.z⟩
  | 1 => ⟨p.x, v, p.z⟩
  | 2 => ⟨p.x, p.y, v⟩
  | _ + 3 => p

/-- Read coordinate `a` of a point, `pt[fa]`. -/
def getAxis (p : Pt) (a : ℕ) : ℚ :=
  match a with
  | 0 => p.x
  | 1 => p.y
  | 2 => p.z
  | _ + 3 => 0

/-- One interior-point smoothing step: weights `1` for the point and
`g` of the squared Euclidean distance for each neighbor, normalised to
sum 1; the weighted average of `pt :: nbrs`, then each axis in `fa`
pinned back to the point's original coordinate. -/
def smoothOne (g : ℚ → ℚ) (pt : Pt) (nbrs : List Pt) (fa : List ℕ) : Pt :=
  let ws : List ℚ := 1 :: nbrs.map (fun q => g (sqdist pt q))
  let wsum := ws.sum
  let nws := ws.map (fun w => w / wsum)
  let apts := pt :: nbrs
  let spt := ((apts.zip nws).foldl
    (fun acc pw => acc + pw.2 • pw.1) ptZero)
  fa.foldl (fun q a => setAxis q a (getAxis pt a)) spt

/-- `gaussian_smooth_points(pts, sigma, min_effect, fix_axes)`:
boundary points and points with no neighbors pass through unchanged,
interior points are smoothed by `smoothOne`.  `fix_axes` is replaced by
`[2]` whenever it is not `None`, exactly as in the source. -/
def gaussian_smooth_points (pts : List Pt) (maxDist : ℚ) (g : ℚ → ℚ)
    (fix_axes : Option (List ℕ)) : List Pt :=
  let fa : List ℕ := match fix_axes with
    | none => []
    | some _ => [2]
  let npts := find_nearby_points_vals pts maxDist false
  (List.range pts.length).map (fun i =>
    let pt := pts.getD i ptZero
    let nb := npts.getD i []
    if i = 0 ∨ i = pts.length - 1 ∨ nb = [] then pt
    else smoothOne g pt nb fa)

theorem gaussian_smooth_points_getD (pts : List Pt) (maxDist : ℚ)
    (g : ℚ → ℚ) (fix_axes : Option (List ℕ)) (i : ℕ) (hi : i < pts.length) :
    (gaussian_smooth_points pts maxDist g fix_axes).getD i ptZero =
      (if i = 0 ∨ i = pts.length - 1 ∨
          (find_nearby_points_vals pts maxDist false).getD i [] = [] then
        pts.getD i ptZero
      else
        smoothOne g (pts.getD i ptZero)
          ((find_nearby_points_vals pts maxDist false).getD i [])
          (match fix_axes with | none => [] | some _ => [2])) := by
  unfold gaussian_smooth_points
  exact map_range_getD _ _ i ptZero hi

theorem gaussian_smooth_points_length (pts : List Pt) (maxDist : ℚ)
    (g : ℚ → ℚ) (fix_axes : Option (List ℕ)) :
    (gaussian_smooth_points pts maxDist g fix_axes).length = pts.length := by
  simp [gaussian_smooth_points]

/-- Claim C8: for any point sequence of length at least 2 and any
smoothing parameters, `gaussian_smooth_points` preserves the length and
passes the first point, the last point, and every interior point with
zero neighbors through unchanged. -/
theorem gaussian_smooth_points_boundary (pts : List Pt) (maxDist : ℚ)
    (g : ℚ → ℚ) (fix_axes : Option (List ℕ)) (hlen : 2 ≤ pts.length) :
    (gaussian_smooth_points pts maxDist g fix_axes).length = pts.length ∧
    (gaussian_smooth_points pts maxDist g fix_axes).getD 0 ptZero =
      pts.getD 0 ptZero ∧
    (gaussian_smooth_points pts maxDist g fix_axes).getD
        (pts.length - 1) ptZero =
      pts.getD (pts.length - 1) ptZero ∧
    ∀ i, 0 < i → i < pts.length - 1 →
      (find_nearby_points_vals pts maxDist false).getD i [] = [] →
      (gaussian_smooth_points pts maxDist g fix_axes).getD i ptZero =
        pts.getD i ptZero := by
  refine ⟨gaussian_smooth_points_length pts maxDist g fix_axes, ?_, ?_, ?_⟩
  · rw [gaussian_smooth_points_getD pts maxDist g fix_axes 0 (by omega)]
    simp
  · rw [gaussian_smooth_points_getD pts maxDist g fix_axes (pts.length - 1)
      (by omega)]
    simp
  · intro i hi0 hi1 hnb
    rw [gaussian_smooth_points_getD pts maxDist g fix_axes i (by omega)]
    have hc : i = 0 ∨ i = pts.length - 1 ∨
        (find_nearby_points_vals pts maxDist false).getD i [] = [] :=
      Or.inr (Or.inr hnb)
    rw [if_pos hc]

/-- Witness for C8 at a concrete 3-point sequence. -/
theorem gaussian_smooth_points_boundary_witness :
    2 ≤ ptsW.length ∧
      (gaussian_smooth_points ptsW 4 (fun _ => 1) none).getD 0 ptZero =
        ptsW.getD 0 ptZero :=
  ⟨by decide,
    (gaussian_smooth_points_boundary ptsW 4 (fun _ => 1) none
      (by decide)).2.1⟩

/-- Claim C5 (refuted by the code): `gaussian_smooth_points` called with
`fix_axes = [0]` on a concrete sequence does not pin the listed axis 0
(the smoothed x is 1, not the original 3) yet does pin the unlisted
axis 2 (the smoothed z equals the original 3): lines 560-563 replace
any non-`None` `fix_axes` by `[2]`. -/
theorem gaussian_smooth_points_fix_axes_bug :
    ((gaussian_smooth_points [⟨0, 0, 0⟩, ⟨3, 3, 3⟩, ⟨0, 0, 9⟩] 100
        (fun _ => 1) (some [0])).getD 1 ptZero).x ≠ 3 ∧
    ((gaussian_smooth_points [⟨0, 0, 0⟩, ⟨3, 3, 3⟩, ⟨0, 0, 9⟩] 100
        (fun _ => 1) (some [0])).getD 1 ptZero).z = 3 ∧
    (gaussian_smooth_points [⟨0, 0, 0⟩, ⟨3, 3, 3⟩, ⟨0, 0, 9⟩] 100
        (fun _ => 1) (some [0])).getD 1 ptZero = ⟨1, 1, 3⟩ := by
  norm_num [gaussian_smooth_points, find_nearby_points_vals,
    find_nearby_points, stepSizes, l1dist, rabs, fwd, bwd, smoothOne,
    setAxis, getAxis, sqdist, ptZero, List.range_succ, Pt.add_def,
    Pt.smul_def, List.zip, List.zipWith, List.foldl, List.replicate,
    List.cons_ne_nil]

/-- Whatever list a non-`None` `fix_axes` holds, axis 2 of every
smoothed point is reset to its original value. -/
theorem gsp_z_pinned (pts : List Pt) (maxDist : ℚ) (g : ℚ → ℚ)
    (axs : List ℕ) (i : ℕ) (hi : i < pts.length) :
    ((gaussian_smooth_points pts maxDist g (some axs)).getD i ptZero).z =
      (pts.getD i ptZero).z := by
  rw [gaussian_smooth_points_getD pts maxDist g (some axs) i hi]
  by_cases hc : i = 0 ∨ i = pts.length - 1 ∨
      (find_nearby_points_vals pts maxDist false).getD i [] = []
  · rw [if_pos hc]
  · rw [if_neg hc]
    simp only [smoothOne, List.foldl, setAxis, getAxis]

/-! ## Trees, ancestor chains and `shortest_path`

The Neuron class and `networkx.shortest_path` are not part of
`morphology.py`.  Modelled from the spec: a tree is a node map over
identifiers `0 .. n-1` with a parent relation; node 0 is the root (the
node with no parent); every other node's parent precedes it (any finite
rooted tree can be numbered this way, and the algorithms never inspect
identifier values); `leaves` are the nodes with no children and
`bifurcations` the nodes with more than one child (spec section 3 and
glossary); `shortest_path` returns the unique connecting node sequence
of the tree, here computed from the two root chains through their last
common ancestor (spec section 4.2). -/

/-- A finite rooted tree on nodes `0 .. n-1`: node 0 is the root and
each other node's parent has a smaller identifier. -/
structure SkelTree where
  n : ℕ
  parent : ℕ → ℕ
  hp : ∀ i, i ≠ 0 → parent i < i

/-- The chain from a node up to the root, with explicit fuel (the
node's identifier bounds the chain length). -/
def chainAux (t : SkelTree) : ℕ → ℕ → List ℕ
  | 0, i => [i]
  | fuel + 1, i => if i = 0 then [0] else i :: chainAux t fuel (t.parent i)

/-- The ancestor chain of `i`: `[i, parent i, ..., 0]`. -/
def chain (t : SkelTree) (i : ℕ) : List ℕ := chainAux t i i

theorem chainAux_zero (t : SkelTree) (fuel : ℕ) :
    chainAux t fuel 0 = [0] := by
  cases fuel <;> simp [chainAux]

theorem chainAux_fuel (t : SkelTree) :
    ∀ i fuel, i ≤ fuel → chainAux t fuel i = chain t i := by
  intro i
  induction i using Nat.strong_induction_on with
  | _ i ih =>
    intro fuel hfi
    by_cases hi : i = 0
    · subst hi
      rw [chainAux_zero]
      rfl
    · obtain ⟨f, rfl⟩ : ∃ f, fuel = f + 1 := by
        cases fuel
        · omega
        · exact ⟨_, rfl⟩
      obtain ⟨k, rfl⟩ : ∃ k, i = k + 1 := by
        cases i
        · omega
        · exact ⟨_, rfl⟩
      have hpar := t.hp (k + 1) hi
      rw [chainAux, if_neg hi]
      unfold chain
      rw [chainAux, if_neg hi]
      rw [ih (t.parent (k + 1)) (by omega) f (by omega)]
      rw [ih (t.parent (k + 1)) (by omega) k (by omega)]

theorem chain_zero (t : SkelTree) : chain t 0 = [0] := rfl

theorem chain_cons (t : SkelTree) (i : ℕ) (hi : i ≠ 0) :
    chain t i = i :: chain t (t.parent i) := by
  obtain ⟨k, rfl⟩ : ∃ k, i = k + 1 := by
    cases i
    · omega
    · exact ⟨_, rfl⟩
  unfold chain
  rw [chainAux, if_neg hi]
  rw [chainAux_fuel t (t.parent (k + 1)) k (by have := t.hp (k + 1) hi; omega)]
  rfl

theorem chain_ne_nil (t : SkelTree) (i : ℕ) : chain t i ≠ [] := by
  by_cases hi : i = 0
  · subst hi
    rw [chain_zero]
    simp
  · rw [chain_cons t i hi]
    simp

theorem chain_head (t : SkelTree) (i : ℕ) :
    (chain t i).head? = some i := by
  by_cases hi : i = 0
  · subst hi
    rw [chain_zero]
    rfl
  · rw [chain_cons t i hi]
    rfl

theorem mem_chain_le (t : SkelTree) :
    ∀ i j, j ∈ chain t i → j ≤ i := by
  intro i
  induction i using Nat.strong_induction_on with
  | _ i ih =>
    intro j hj
    by_cases hi : i = 0
    · subst hi
      rw [chain_zero] at hj
      simp at hj
      omega
    · rw [chain_cons t i hi] at hj
      rcases List.mem_cons.mp hj with h | h
      · omega
      · have hpar := t.hp i hi
        have := ih (t.parent i) hpar j h
        omega

theorem chain_self_mem (t : SkelTree) (i : ℕ) : i ∈ chain t i := by
  by_cases hi : i = 0
  · subst hi
    rw [chain_zero]
    simp
  · rw [chain_cons t i hi]
    simp

theorem zero_mem_chain (t : SkelTree) : ∀ i, 0 ∈ chain t i := by
  intro i
  induction i using Nat.strong_induction_on with
  | _ i ih =>
    by_cases hi : i = 0
    · subst hi
      rw [chain_zero]
      simp
    · rw [chain_cons t i hi]
      exact List.mem_cons_of_mem i (ih (t.parent i) (t.hp i hi))

theorem chain_nodup (t : SkelTree) : ∀ i, (chain t i).Nodup := by
  intro i
  induction i using Nat.strong_induction_on with
  | _ i ih =>
    by_cases hi : i = 0
    · subst hi
      rw [chain_zero]
      simp
    · rw [chain_cons t i hi]
      refine List.nodup_cons.mpr ⟨?_, ih (t.parent i) (t.hp i hi)⟩
      intro hmem
      have h1 := mem_chain_le t (t.parent i) i hmem
      have h2 := t.hp i hi
      omega

/-- `a` is an ancestor of `b` (or `a = b`): `a` lies on `b`'s root
chain. -/
def anc (t : SkelTree) (a b : ℕ) : Prop := a ∈ chain t b

instance (t : SkelTree) (a b : ℕ) : Decidable (anc t a b) := by
  unfold anc
  infer_instance

theorem anc_refl (t : SkelTree) (a : ℕ) : anc t a a := chain_self_mem t a

theorem anc_zero (t : SkelTree) (b : ℕ) : anc t 0 b := zero_mem_chain t b

theorem anc_le (t : SkelTree) {a b : ℕ} (h : anc t a b) : a ≤ b :=
  mem_chain_le t b a h

theorem anc_suffix (t : SkelTree) :
    ∀ b a, anc t a b → ∃ D, chain t b = D ++ chain t a := by
  intro b
  induction b using Nat.strong_induction_on with
  | _ b ih =>
    intro a hab
    unfold anc at hab
    by_cases hb : b = 0
    · subst hb
      rw [chain_zero] at hab
      simp at hab
      subst hab
      exact ⟨[], by simp⟩
    · rw [chain_cons t b hb] at hab
      rcases List.mem_cons.mp hab with h | h
      · subst h
        exact ⟨[], rfl⟩
      · obtain ⟨D, hD⟩ := ih (t.parent b) (t.hp b hb) a h
        refine ⟨b :: D, ?_⟩
        rw [chain_cons t b hb, hD]
        rfl

theorem anc_trans (t : SkelTree) {a b c : ℕ}
    (hab : anc t a b) (hbc : anc t b c) : anc t a c := by
  obtain ⟨D, hD⟩ := anc_suffix t c b hbc
  unfold anc
  rw [hD]
  exact List.mem_append_right D hab

theorem anc_antisymm (t : SkelTree) {a b : ℕ}
    (hab : anc t a b) (hba : anc t b a) : a = b := by
  have h1 := anc_le t hab
  have h2 := anc_le t hba
  omega

theorem anc_total (t : SkelTree) :
    ∀ i j k, j ∈ chain t i → k ∈ chain t i → anc t j k ∨ anc t k j := by
  intro i
  induction i using Nat.strong_induction_on with
  | _ i ih =>
    intro j k hj hk
    by_cases hi : i = 0
    · subst hi
      rw [chain_zero] at hj hk
      simp at hj hk
      subst hj
      subst hk
      exact Or.inl (anc_refl t 0)
    · rw [chain_cons t i hi] at hj hk
      rcases List.mem_cons.mp hj with h1 | h1 <;>
        rcases List.mem_cons.mp hk with h2 | h2
      · subst h1
        subst h2
        exact Or.inl (anc_refl t k)
      · right
        unfold anc
        rw [h1, chain_cons t i hi]
        exact List.mem_cons_of_mem i h2
      · left
        unfold anc
        rw [h2, chain_cons t i hi]
        exact List.mem_cons_of_mem i h1
      · exact ih (t.parent i) (t.hp i hi) j k h1 h2

/-- The strict part of `b`'s chain above `a`: membership in `D` from
`chain t b = D ++ chain t a`. -/
theorem mem_strict_part (t : SkelTree) {a b : ℕ} {D : List ℕ}
    (hD : chain t b = D ++ chain t a) (j : ℕ) :
    j ∈ D ↔ (anc t j b ∧ ¬ anc t j a) := by
  have hnd : (chain t b).Nodup := chain_nodup t b
  rw [hD] at hnd
  constructor
  · intro hj
    constructor
    · unfold anc
      rw [hD]
      exact List.mem_append_left _ hj
    · intro hja
      exact (List.disjoint_of_nodup_append hnd) hj hja
  · rintro ⟨hjb, hja⟩
    unfold anc at hjb
    rw [hD] at hjb
    rcases List.mem_append.mp hjb with h | h
    · exact h
    · exact absurd h hja

/-- Longest shared initial segment of two lists (used to find the
common root-side part of two reversed ancestor chains). -/
def sharedStart : List ℕ → List ℕ → List ℕ
  | a :: as, b :: bs => if a = b then a :: sharedStart as bs else []
  | _, [] => []
  | [], _ => []

theorem sharedStart_comm : ∀ u v, sharedStart u v = sharedStart v u := by
  intro u
  induction u with
  | nil =>
    intro v
    cases v <;> rfl
  | cons a as ih =>
    intro v
    cases v with
    | nil => rfl
    | cons b bs =>
      by_cases hab : a = b
      · subst hab
        simp [sharedStart, ih bs]
      · simp [sharedStart, hab, Ne.symm hab]

theorem sharedStart_self : ∀ u, sharedStart u u = u := by
  intro u
  induction u with
  | nil => rfl
  | cons a as ih => simp [sharedStart, ih]

theorem sharedStart_append : ∀ u v, sharedStart u (u ++ v) = u := by
  intro u
  induction u with
  | nil =>
    intro v
    cases v <;> rfl
  | cons a as ih =>
    intro v
    simp [sharedStart, ih v]

/-- Modelled from the spec: `shortest_path(graph, a, b)` returns the
ordered node sequence from `a` to `b` inclusive; on a tree this is the
unique connecting path, going from `a` up to the last common ancestor
of `a` and `b` and back down to `b` (spec section 4.2). -/
def shortestPath (t : SkelTree) (a b : ℕ) : List ℕ :=
  ((chain t a).take ((chain t a).length -
      (sharedStart (chain t a).reverse (chain t b).reverse).length)) ++
    [(sharedStart (chain t a).reverse (chain t b).reverse).getLastD 0] ++
    ((chain t b).take ((chain t b).length -
      (sharedStart (chain t a).reverse (chain t b).reverse).length)).reverse

theorem getLastD_reverse (l : List ℕ) (d : ℕ) :
    l.reverse.getLastD d = l.headD d := by
  rw [List.getLastD_eq_getLast?, List.getLast?_reverse, List.headD_eq_head?]

theorem headD_chain (t : SkelTree) (i : ℕ) : (chain t i).headD 0 = i := by
  have h := chain_head t i
  cases hc : chain t i with
  | nil => exact absurd hc (chain_ne_nil t i)
  | cons x xs =>
    rw [hc] at h
    simp at h
    simp [h]

theorem sp_self (t : SkelTree) (a : ℕ) : shortestPath t a a = [a] := by
  unfold shortestPath
  rw [sharedStart_self]
  simp only [List.length_reverse, Nat.sub_self, List.take_zero,
    List.reverse_nil, List.nil_append, List.append_nil]
  rw [getLastD_reverse, headD_chain]

theorem sp_symm (t : SkelTree) (a b : ℕ) :
    shortestPath t b a = (shortestPath t a b).reverse := by
  unfold shortestPath
  rw [sharedStart_comm (chain t b).reverse (chain t a).reverse]
  simp only [List.reverse_append, List.reverse_reverse, List.reverse_cons,
    List.reverse_nil, List.nil_append, List.append_assoc]

/-! ## `path_length` (morphology.py 239-275)

`distance(neuron, v0, v1)` is a Euclidean distance, an irrational
square root; the embedding therefore takes the node-distance function
`dfn` as a parameter.  The claim's symmetry property depends only on
`dfn` being symmetric, which the Euclidean distance is (two nonnegative
numbers with equal squares are equal — `dist_eq_of_sq_eq` below), so
the theorem quantifies over every symmetric `dfn` and holds in
particular for the source's `distance`. -/

/-- The sum `sum(distance(path[i], path[i+1]) for i ...)` over the
consecutive pairs of a node path. -/
def pathSum (coords : ℕ → Pt) (dfn : Pt → Pt → ℚ) (p : List ℕ) : ℚ :=
  ((p.zip p.tail).map (fun pr => dfn (coords pr.1) (coords pr.2))).sum

/-- `path_length(neuron, v0, v1)`: sum of node distances along the
shortest path. -/
def path_length (t : SkelTree) (coords : ℕ → Pt) (dfn : Pt → Pt → ℚ)
    (v0 v1 : ℕ) : ℚ :=
  pathSum coords dfn (shortestPath t v0 v1)

/-- Any two nonnegative rationals with equal squares are equal: the
Euclidean distance (characterised by `0 ≤ d` and `d * d = sqdist p q`)
is symmetric because `sqdist` is. -/
theorem dist_eq_of_sq_eq (d1 d2 : ℚ) (h1 : 0 ≤ d1) (h2 : 0 ≤ d2)
    (hsq : d1 * d1 = d2 * d2) : d1 = d2 := by
  have hfac : (d1 - d2) * (d1 + d2) = 0 := by ring_nf; linarith
  rcases mul_eq_zero.mp hfac with h | h
  · linarith
  · linarith

theorem pathSum_cons₂ (coords : ℕ → Pt) (dfn : Pt → Pt → ℚ)
    (a b : ℕ) (l : List ℕ) :
    pathSum coords dfn (a :: b :: l) =
      dfn (coords a) (coords b) + pathSum coords dfn (b :: l) := by
  simp [pathSum]

theorem pathSum_append_single (coords : ℕ → Pt) (dfn : Pt → Pt → ℚ) :
    ∀ (l : List ℕ) (x : ℕ),
      pathSum coords dfn (l ++ [x]) =
        pathSum coords dfn l +
          (match l.getLast? with
           | none => 0
           | some y => dfn (coords y) (coords x)) := by
  intro l
  induction l with
  | nil =>
    intro x
    simp [pathSum]
  | cons a l' ih =>
    intro x
    cases l' with
    | nil =>
      simp [pathSum]
    | cons b l'' =>
      rw [List.cons_append, List.cons_append, pathSum_cons₂, ← List.cons_append]
      rw [ih x, pathSum_cons₂]
      rw [List.getLast?_cons_cons]
      ring

theorem pathSum_reverse (coords : ℕ → Pt) (dfn : Pt → Pt → ℚ)
    (hsym : ∀ p q, dfn p q = dfn q p) :
    ∀ l : List ℕ, pathSum coords dfn l.reverse = pathSum coords dfn l := by
  intro l
  induction l with
  | nil => rfl
  | cons a l' ih =>
    rw [List.reverse_cons, pathSum_append_single]
    cases l' with
    | nil =>
      simp [pathSum]
    | cons b l'' =>
      rw [ih, pathSum_cons₂]
      have hlast : (b :: l'').reverse.getLast? = some b := by
        rw [List.getLast?_reverse]
        rfl
      rw [hlast]
      dsimp only
      rw [hsym (coords b) (coords a)]
      ring

/-- Claim C10: for every tree, every coordinate assignment and every
symmetric node-distance function (in particular the Euclidean
distance), `path_length(neuron, a, b) = path_length(neuron, b, a)` and
`path_length(neuron, a, a) = 0`. -/
theorem path_length_spec (t : SkelTree) (coords : ℕ → Pt)
    (dfn : Pt → Pt → ℚ) (hsym : ∀ p q, dfn p q = dfn q p) (a b : ℕ) :
    path_length t coords dfn a b = path_length t coords dfn b a ∧
      path_length t coords dfn a a = 0 := by
  constructor
  · unfold path_length
    rw [sp_symm t a b, pathSum_reverse coords dfn hsym]
  · unfold path_length
    rw [sp_self]
    simp [pathSum]

/-- The path tree `0 ← 1 ← ... ← n-1` (each node's parent is its
predecessor). -/
def lineTree (n : ℕ) : SkelTree :=
  ⟨n, fun i => i - 1, by
    intro i hi
    show i - 1 < i
    omega⟩

/-- Witness for C10 on a concrete 3-node path with the squared-distance
kernel as a symmetric node-distance function. -/
theorem path_length_spec_witness :
    path_length (lineTree 3) (fun i => ⟨(i : ℚ), 0, 0⟩) sqdist 0 2 =
      path_length (lineTree 3) (fun i => ⟨(i : ℚ), 0, 0⟩) sqdist 2 0 ∧
    path_length (lineTree 3) (fun i => ⟨(i : ℚ), 0, 0⟩) sqdist 1 1 = 0 :=
  ⟨(path_length_spec (lineTree 3) (fun i => ⟨(i : ℚ), 0, 0⟩)
      sqdist sqdist_comm 0 2).1,
    (path_length_spec (lineTree 3) (fun i => ⟨(i : ℚ), 0, 0⟩)
      sqdist sqdist_comm 1 1).2⟩

/-! ## `unique_neurites` (morphology.py 326-379)

Modelled from the spec where the Neuron class is concerned: `root` is
node 0 (the node with no parent), `leaves` are the nodes with no
children, `bifurcations` the nodes with more than one child, and
`neu.graph` shortest paths are `shortestPath` above.  The enumeration
itself is translated line by line from `unique_neurites`: the loop over
bifurcations with its inner bifurcation-pair refinement, the loop over
leaves with its inner bifurcation-to-leaf refinement, and the final
set-based deduplication (modelled by `List.dedup`; the claims proved
about the result do not depend on element order). -/

/-- The children of `v`: the nonroot nodes whose parent is `v`. -/
def children (t : SkelTree) (v : ℕ) : List ℕ :=
  (List.range t.n).filter (fun i => decide (i ≠ 0 ∧ t.parent i = v))

/-- Number of children of `v`. -/
def childCount (t : SkelTree) (v : ℕ) : ℕ := (children t v).length

/-- `leaves`: nodes with no children. -/
def leaves (t : SkelTree) : List ℕ :=
  (List.range t.n).filter (fun v => decide (childCount t v = 0))

/-- `bifurcations`: nodes with more than one child. -/
def bifurcations (t : SkelTree) : List ℕ :=
  (List.range t.n).filter (fun v => decide (1 < childCount t v))

theorem mem_children (t : SkelTree) (v j : ℕ) :
    j ∈ children t v ↔ j < t.n ∧ j ≠ 0 ∧ t.parent j = v := by
  unfold children
  rw [List.mem_filter, List.mem_range]
  simp

theorem mem_leaves (t : SkelTree) (v : ℕ) :
    v ∈ leaves t ↔ v < t.n ∧ childCount t v = 0 := by
  unfold leaves
  rw [List.mem_filter, List.mem_range]
  simp

theorem mem_bifurcations (t : SkelTree) (v : ℕ) :
    v ∈ bifurcations t ↔ v < t.n ∧ 1 < childCount t v := by
  unfold bifurcations
  rw [List.mem_filter, List.mem_range]
  simp

/-- The first loop of `unique_neurites`: for every bifurcation other
than the base, either the direct path from the base (when no other
bifurcation lies on it) or the refined bifurcation-to-bifurcation
paths that contain no further bifurcation. -/
def neuritesFromBifs (t : SkelTree) (base : ℕ) : List (List ℕ) :=
  ((bifurcations t).filter (fun b => decide (b ≠ base))).flatMap
    (fun w =>
      if ((bifurcations t).filter (fun b =>
          decide (b ∈ shortestPath t base w ∧ b ≠ w))).isEmpty then
        [shortestPath t base w]
      else
        ((bifurcations t).filter (fun b =>
            decide (b ∈ shortestPath t base w ∧ b ≠ w))).filterMap
          (fun b =>
            if ((bifurcations t).filter (fun bi =>
                decide (bi ∈ shortestPath t b w ∧ bi ≠ w ∧
                  bi ≠ b))).isEmpty then
              some (shortestPath t b w)
            else none))

/-- The second loop of `unique_neurites`: for every leaf, either the
direct path from the base or the refined bifurcation-to-leaf paths
containing no further bifurcation. -/
def neuritesFromLeaves (t : SkelTree) (base : ℕ) : List (List ℕ) :=
  (leaves t).flatMap
    (fun lf =>
      if ((bifurcations t).filter (fun b =>
          decide (b ∈ shortestPath t base lf))).isEmpty then
        [shortestPath t base lf]
      else
        ((bifurcations t).filter (fun b =>
            decide (b ∈ shortestPath t base lf))).filterMap
          (fun b =>
            if ((bifurcations t).filter (fun bi =>
                decide (bi ∈ shortestPath t b lf ∧ bi ≠ b))).isEmpty then
              some (shortestPath t b lf)
            else none))

/-- `unique_neurites(neu, base)`, translated from morphology.py
326-379: both loops followed by the `list(set(...))` deduplication. -/
def uniqueNeurites (t : SkelTree) (base : ℕ) : List (List ℕ) :=
  (neuritesFromBifs t base ++ neuritesFromLeaves t base).dedup

/-- The consecutive pairs of a node path. -/
def adjPairs (s : List ℕ) : List (ℕ × ℕ) := s.zip s.tail

/-- The segment `s` covers the tree edge `(parent i, i)` (in either
direction). -/
def covers (t : SkelTree) (s : List ℕ) (i : ℕ) : Prop :=
  (t.parent i, i) ∈ adjPairs s ∨ (i, t.parent i) ∈ adjPairs s

instance (t : SkelTree) (s : List ℕ) (i : ℕ) : Decidable (covers t s i) := by
  unfold covers
  infer_instance

theorem adjPairs_chain (t : SkelTree) :
    ∀ i, adjPairs (chain t i) =
      (chain t i).dropLast.map (fun j => (j, t.parent j)) := by
  intro i
  induction i using Nat.strong_induction_on with
  | _ i ih =>
    by_cases hi : i = 0
    · subst hi
      rw [chain_zero]
      rfl
    · rw [chain_cons t i hi]
      have hcp := chain_cons t i hi
      cases hc : chain t (t.parent i) with
      | nil => exact absurd hc (chain_ne_nil t (t.parent i))
      | cons x xs =>
        have hx : x = t.parent i := by
          have h := chain_head t (t.parent i)
          rw [hc] at h
          simpa using h
        subst hx
        have ihp := ih (t.parent i) (t.hp i hi)
        rw [hc] at ihp
        simp only [adjPairs, List.zip_cons_cons, List.tail_cons,
          List.dropLast_cons_of_ne_nil (List.cons_ne_nil _ _),
          List.map_cons] at ihp ⊢
        rw [← ihp]

theorem mem_adjPairs_append_single :
    ∀ (l : List ℕ) (x : ℕ) (p : ℕ × ℕ),
      p ∈ adjPairs (l ++ [x]) ↔
        p ∈ adjPairs l ∨ (l.getLast? = some p.1 ∧ p.2 = x) := by
  intro l
  induction l with
  | nil =>
    intro x p
    simp [adjPairs]
  | cons a l' ih =>
    intro x p
    cases l' with
    | nil =>
      simp only [List.nil_append, List.cons_append, adjPairs,
        List.zip_cons_cons, List.tail_cons, List.getLast?_singleton]
      constructor
      · intro h
        simp [adjPairs] at h
        right
        cases p
        simp at h ⊢
        obtain ⟨h1, h2⟩ := h
        omega
      · rintro (h | h)
        · simp [adjPairs] at h
        · cases p
          simp at h ⊢
          obtain ⟨h1, h2⟩ := h
          omega
    | cons b l'' =>
      have hstep : adjPairs ((a :: b :: l'') ++ [x]) =
          (a, b) :: adjPairs ((b :: l'') ++ [x]) := by
        simp [adjPairs]
      have hstep2 : adjPairs (a :: b :: l'') =
          (a, b) :: adjPairs (b :: l'') := by
        simp [adjPairs]
      rw [hstep, hstep2, List.mem_cons, List.mem_cons, ih x p,
        List.getLast?_cons_cons]
      tauto

theorem mem_adjPairs_reverse :
    ∀ (l : List ℕ) (x y : ℕ),
      (x, y) ∈ adjPairs l.reverse ↔ (y, x) ∈ adjPairs l := by
  intro l
  induction l with
  | nil =>
    intro x y
    simp [adjPairs]
  | cons a l' ih =>
    intro x y
    rw [List.reverse_cons, mem_adjPairs_append_single]
    cases l' with
    | nil =>
      simp [adjPairs]
    | cons b l'' =>
      have hstep2 : adjPairs (a :: b :: l'') =
          (a, b) :: adjPairs (b :: l'') := by
        simp [adjPairs]
      rw [hstep2, List.mem_cons, ih x y]
      have hlast : (b :: l'').reverse.getLast? = some b := by
        rw [List.getLast?_reverse]
        rfl
      rw [hlast]
      constructor
      · rintro (h | ⟨h1, h2⟩)
        · exact Or.inr h
        · left
          simp only at h1 h2
          have hxb : x = b := by
            injection h1 with h1'
            omega
          subst hxb
          subst h2
          rfl
      · rintro (h | h)
        · right
          have h1 : y = a ∧ x = b := by
            cases h
            exact ⟨rfl, rfl⟩
          obtain ⟨rfl, rfl⟩ := h1
          exact ⟨rfl, rfl⟩
        · exact Or.inl h

theorem adjPairs_take :
    ∀ (l : List ℕ) (k : ℕ), adjPairs (l.take (k + 1)) = (adjPairs l).take k := by
  intro l
  induction l with
  | nil =>
    intro k
    simp [adjPairs]
  | cons a l' ih =>
    intro k
    cases k with
    | zero =>
      cases l' <;> simp [adjPairs]
    | succ k' =>
      cases l' with
      | nil => simp [adjPairs]
      | cons b l'' =>
        have h1 : (a :: b :: l'').take (k' + 1 + 1) =
            a :: (b :: l'').take (k' + 1) := rfl
        rw [h1]
        have h2 : (b :: l'').take (k' + 1) = b :: l''.take k' := rfl
        have hstep : adjPairs (a :: (b :: l'').take (k' + 1)) =
            (a, b) :: adjPairs ((b :: l'').take (k' + 1)) := by
          rw [h2]
          simp [adjPairs]
        rw [hstep, ih k']
        have hstep2 : adjPairs (a :: b :: l'') =
            (a, b) :: adjPairs (b :: l'') := by
          simp [adjPairs]
        rw [hstep2]
        rfl

theorem mem_adjPairs_junction :
    ∀ (u v : List ℕ) (hu : u ≠ []) (hv : v ≠ []),
      (u.getLast hu, v.headD 0) ∈ adjPairs (u ++ v) := by
  intro u
  induction u with
  | nil =>
    intro v hu hv
    exact absurd rfl hu
  | cons a u' ih =>
    intro v hu hv
    cases u' with
    | nil =>
      cases v with
      | nil => exact absurd rfl hv
      | cons b v' =>
        simp [adjPairs]
    | cons c u'' =>
      have h1 : ((a :: c :: u'') ++ v) = a :: ((c :: u'') ++ v) := rfl
      rw [h1]
      have h2 : (c :: u'') ++ v = c :: (u'' ++ v) := rfl
      have hstep : adjPairs (a :: ((c :: u'') ++ v)) =
          (a, c) :: adjPairs ((c :: u'') ++ v) := by
        rw [h2]
        simp [adjPairs]
      rw [hstep]
      refine List.mem_cons_of_mem _ ?_
      have hlast : (a :: c :: u'').getLast hu = (c :: u'').getLast (by simp) := by
        rw [List.getLast_cons]
      rw [hlast]
      exact ih v (by simp) hv

theorem sp_anc (t : SkelTree) (a b : ℕ) (D : List ℕ)
    (hD : chain t b = D ++ chain t a) :
    shortestPath t a b = a :: D.reverse := by
  unfold shortestPath
  rw [hD]
  rw [List.reverse_append, sharedStart_append]
  simp only [List.length_reverse, Nat.sub_self, List.take_zero,
    List.nil_append, List.length_append]
  rw [getLastD_reverse, headD_chain]
  have hlen : D.length + (chain t a).length - (chain t a).length =
      D.length := by omega
  rw [hlen]
  rw [List.take_left' rfl]
  rfl

theorem mem_sp_anc (t : SkelTree) (a b : ℕ) (D : List ℕ)
    (hD : chain t b = D ++ chain t a) (j : ℕ) :
    j ∈ shortestPath t a b ↔ j = a ∨ (anc t j b ∧ ¬ anc t j a) := by
  rw [sp_anc t a b D hD, List.mem_cons, List.mem_reverse,
    mem_strict_part t hD]

theorem sp_anc_ne_nil (t : SkelTree) (a b : ℕ) (D : List ℕ)
    (hD : chain t b = D ++ chain t a) : shortestPath t a b ≠ [] := by
  rw [sp_anc t a b D hD]
  simp

theorem headD_append_of_ne_nil (u v : List ℕ) (hu : u ≠ []) :
    (u ++ v).headD 0 = u.headD 0 := by
  cases u with
  | nil => exact absurd rfl hu
  | cons x xs => rfl

theorem strict_part_head (t : SkelTree) (a b : ℕ) (D : List ℕ)
    (hD : chain t b = D ++ chain t a) (hne : D ≠ []) :
    D.headD 0 = b := by
  have h := headD_chain t b
  rw [hD, headD_append_of_ne_nil D (chain t a) hne] at h
  exact h

theorem sp_anc_getLast (t : SkelTree) (a b : ℕ) (D : List ℕ)
    (hD : chain t b = D ++ chain t a) :
    (shortestPath t a b).getLast? = some b := by
  rw [sp_anc t a b D hD]
  cases hne : D with
  | nil =>
    rw [hne] at hD
    have hab : a = b := by
      have h1 := headD_chain t a
      have h2 := headD_chain t b
      rw [hD] at h2
      simp only [List.nil_append] at h2
      rw [h1] at h2
      exact h2
    subst hab
    rfl
  | cons x xs =>
    have hDne : D ≠ [] := by rw [hne]; simp
    have hhead := strict_part_head t a b D hD hDne
    rw [← hne]
    have h1 : (a :: D.reverse).getLast? = D.reverse.getLast? := by
      have h2 : D.reverse ≠ [] := by
        simp [hDne]
      cases hrr : D.reverse with
      | nil => exact absurd hrr h2
      | cons y ys => simp [List.getLast?_cons_cons]
    rw [h1, List.getLast?_reverse]
    cases hc : D with
    | nil => exact absurd hc hDne
    | cons z zs =>
      rw [hc] at hhead
      simp only [List.headD_cons] at hhead
      subst hhead
      rfl

/-- Edge coverage by an ancestor-descendant segment: the segment from
`a` down to `b` covers exactly the edges whose child endpoint lies
strictly between `a` (exclusive) and `b` (inclusive). -/
theorem covers_sp (t : SkelTree) (a b : ℕ) (D : List ℕ)
    (hD : chain t b = D ++ chain t a) (i : ℕ) (hi : 0 < i) :
    covers t (shortestPath t a b) i ↔ i ∈ D := by
  have hchne : chain t a ≠ [] := chain_ne_nil t a
  obtain ⟨resta, hresta⟩ : ∃ xs, chain t a = a :: xs := by
    cases hc : chain t a with
    | nil => exact absurd hc hchne
    | cons x xs =>
      have h := headD_chain t a
      rw [hc] at h
      simp only [List.headD_cons] at h
      subst h
      exact ⟨xs, rfl⟩
  have hDa : D ++ [a] = (chain t b).take (D.length + 1) := by
    rw [hD, hresta]
    rw [List.take_append]
    rfl
  have hpairs : adjPairs (D ++ [a]) =
      D.map (fun j => (j, t.parent j)) := by
    rw [hDa, adjPairs_take, adjPairs_chain]
    have hdl : (chain t b).dropLast = (chain t b).take
        ((chain t b).length - 1) := List.dropLast_eq_take (chain t b)
    rw [hdl, List.map_take, List.take_take]
    have hmin : min D.length ((chain t b).length - 1) = D.length := by
      rw [hD, hresta]
      simp only [List.length_append, List.length_cons]
      omega
    rw [hmin, ← List.map_take]
    congr 1
    rw [hD]
    exact List.take_left' rfl
  have hrev : shortestPath t a b = (D ++ [a]).reverse := by
    rw [sp_anc t a b D hD, List.reverse_append]
    rfl
  unfold covers
  rw [hrev]
  rw [mem_adjPairs_reverse, mem_adjPairs_reverse, hpairs]
  simp only [List.mem_map]
  constructor
  · rintro (⟨j, hj, hjeq⟩ | ⟨j, hj, hjeq⟩)
    · have h2 : j = i := by
        have := congrArg Prod.fst hjeq
        simpa using this
      subst h2
      exact hj
    · exfalso
      have hj0 : j ≠ 0 := by
        intro h0
        subst h0
        have h0a : (0 : ℕ) ∈ chain t a := zero_mem_chain t a
        have hnd := chain_nodup t b
        rw [hD] at hnd
        exact (List.disjoint_of_nodup_append hnd) hj h0a
      have h1 : j = t.parent i := by
        have := congrArg Prod.fst hjeq
        simpa using this
      have h2 : t.parent j = i := by
        have := congrArg Prod.snd hjeq
        simpa using this
      have hjlt := t.hp j hj0
      have hilt := t.hp i (by omega)
      omega
  · intro hiD
    left
    exact ⟨i, hiD, rfl⟩

theorem chain_sorted (t : SkelTree) :
    ∀ i, (chain t i).Pairwise (fun a b => b < a) := by
  intro i
  induction i using Nat.strong_induction_on with
  | _ i ih =>
    by_cases hi : i = 0
    · subst hi
      rw [chain_zero]
      simp
    · rw [chain_cons t i hi]
      refine List.pairwise_cons.mpr ⟨?_, ih (t.parent i) (t.hp i hi)⟩
      intro j hj
      have h1 := mem_chain_le t (t.parent i) j hj
      have h2 := t.hp i hi
      omega

theorem mem_chain_tail (t : SkelTree) (v j : ℕ) :
    j ∈ (chain t v).tail ↔ anc t j v ∧ j ≠ v := by
  by_cases hv : v = 0
  · subst hv
    rw [chain_zero]
    simp only [List.tail_cons, List.not_mem_nil, false_iff]
    rintro ⟨h1, h2⟩
    unfold anc at h1
    rw [chain_zero] at h1
    simp at h1
    exact h2 h1
  · rw [chain_cons t v hv]
    simp only [List.tail_cons]
    constructor
    · intro hj
      have hjv : j ≠ v := by
        intro h
        subst h
        have h1 := mem_chain_le t (t.parent j) j hj
        have h2 := t.hp j hv
        omega
      refine ⟨?_, hjv⟩
      unfold anc
      rw [chain_cons t v hv]
      exact List.mem_cons_of_mem v hj
    · rintro ⟨h1, h2⟩
      unfold anc at h1
      rw [chain_cons t v hv] at h1
      rcases List.mem_cons.mp h1 with h | h
      · exact absurd h h2
      · exact h

/-- The strict bifurcation ancestors of `v`, nearest first. -/
def strictAncsBifs (t : SkelTree) (v : ℕ) : List ℕ :=
  (chain t v).tail.filter (fun b => decide (1 < childCount t b))

/-- The nearest bifurcation strictly above `v`, or the root 0 if
there is none. -/
def Astar (t : SkelTree) (v : ℕ) : ℕ := (strictAncsBifs t v).headD 0

theorem mem_strictAncsBifs (t : SkelTree) (v b : ℕ) :
    b ∈ strictAncsBifs t v ↔ anc t b v ∧ b ≠ v ∧ 1 < childCount t b := by
  unfold strictAncsBifs
  rw [List.mem_filter, mem_chain_tail]
  simp
  tauto

theorem Astar_spec_none (t : SkelTree) (v : ℕ)
    (h : strictAncsBifs t v = []) :
    Astar t v = 0 ∧
      ∀ b, anc t b v → b ≠ v → ¬ 1 < childCount t b := by
  constructor
  · unfold Astar
    rw [h]
    rfl
  · intro b hb hbv hcc
    have : b ∈ strictAncsBifs t v := (mem_strictAncsBifs t v b).mpr ⟨hb, hbv, hcc⟩
    rw [h] at this
    simp at this

theorem Astar_spec_some (t : SkelTree) (v : ℕ)
    (h : strictAncsBifs t v ≠ []) :
    1 < childCount t (Astar t v) ∧ anc t (Astar t v) v ∧ Astar t v ≠ v ∧
      ∀ b, 1 < childCount t b → anc t b v → b ≠ v → anc t b (Astar t v) := by
  obtain ⟨x, xs, hx⟩ : ∃ x xs, strictAncsBifs t v = x :: xs := by
    cases hc : strictAncsBifs t v with
    | nil => exact absurd hc h
    | cons x xs => exact ⟨x, xs, rfl⟩
  have hA : Astar t v = x := by
    unfold Astar
    rw [hx]
    rfl
  have hxmem : x ∈ strictAncsBifs t v := by
    rw [hx]
    simp
  obtain ⟨hanc, hne, hcc⟩ := (mem_strictAncsBifs t v x).mp hxmem
  rw [hA]
  refine ⟨hcc, hanc, hne, ?_⟩
  intro b hbcc hbanc hbne
  have hbmem : b ∈ strictAncsBifs t v :=
    (mem_strictAncsBifs t v b).mpr ⟨hbanc, hbne, hbcc⟩
  have hble : b ≤ x := by
    rw [hx] at hbmem
    rcases List.mem_cons.mp hbmem with hh | hh
    · omega
    · have hsorted : (strictAncsBifs t v).Pairwise (fun a b => b < a) := by
        unfold strictAncsBifs
        apply List.Pairwise.filter
        have := chain_sorted t v
        exact List.Pairwise.tail this
      rw [hx] at hsorted
      have := (List.pairwise_cons.mp hsorted).1 b hh
      omega
  have htot := anc_total t v b x hbanc hanc
  rcases htot with hh | hh
  · exact hh
  · have : x ≤ b := anc_le t hh
    have hbx : b = x := by omega
    subst hbx
    exact anc_refl t b

/-- The unique child of a single-child node. -/
def theChild (t : SkelTree) (v : ℕ) : ℕ := (children t v).headD 0

theorem theChild_spec (t : SkelTree) (v : ℕ) (h : childCount t v = 1) :
    theChild t v ∈ children t v ∧
      ∀ j ∈ children t v, j = theChild t v := by
  obtain ⟨x, hx⟩ := List.length_eq_one.mp h
  unfold theChild
  rw [hx]
  simp

theorem child_gt (t : SkelTree) (v c : ℕ) (hc : c ∈ children t v) :
    v < c ∧ c < t.n ∧ c ≠ 0 ∧ t.parent c = v := by
  obtain ⟨h1, h2, h3⟩ := (mem_children t v c).mp hc
  have := t.hp c h2
  omega

/-- Descend through single-child nodes to the first landmark (leaf or
bifurcation) at or below `i`. -/
def downLm (t : SkelTree) (i : ℕ) : ℕ :=
  if h : childCount t i = 1 then
    downLm t (theChild t i)
  else i
termination_by t.n - i
decreasing_by
  have hm := (theChild_spec t i h).1
  have := child_gt t i (theChild t i) hm
  omega

theorem anc_parent (t : SkelTree) (c : ℕ) (hc : c ≠ 0) :
    anc t (t.parent c) c := by
  unfold anc
  rw [chain_cons t c hc]
  exact List.mem_cons_of_mem c (chain_self_mem t (t.parent c))

theorem downLm_of_cc_ne (t : SkelTree) (i : ℕ) (h : childCount t i ≠ 1) :
    downLm t i = i := by
  rw [downLm]
  simp [h]

theorem downLm_of_cc_eq (t : SkelTree) (i : ℕ) (h : childCount t i = 1) :
    downLm t i = downLm t (theChild t i) := by
  rw [downLm]
  simp [h]

theorem downLm_anc (t : SkelTree) : ∀ i, anc t i (downLm t i) := by
  intro i
  induction i using downLm.induct t with
  | case1 x hx ihx =>
    rw [downLm_of_cc_eq t x hx]
    have hcm := (theChild_spec t x hx).1
    obtain ⟨h1, h2, h3, h4⟩ := child_gt t x (theChild t x) hcm
    have hxc : anc t x (theChild t x) := by
      have hpa := anc_parent t (theChild t x) h3
      rw [h4] at hpa
      exact hpa
    exact anc_trans t hxc ihx
  | case2 x hx =>
    rw [downLm_of_cc_ne t x hx]
    exact anc_refl t x

theorem downLm_cc (t : SkelTree) : ∀ i, childCount t (downLm t i) ≠ 1 := by
  intro i
  induction i using downLm.induct t with
  | case1 x hx ihx =>
    rw [downLm_of_cc_eq t x hx]
    exact ihx
  | case2 x hx =>
    rw [downLm_of_cc_ne t x hx]
    exact hx

theorem downLm_lt_n (t : SkelTree) : ∀ i, i < t.n → downLm t i < t.n := by
  intro i
  induction i using downLm.induct t with
  | case1 x hx ihx =>
    intro hxn
    rw [downLm_of_cc_eq t x hx]
    have hcm := (theChild_spec t x hx).1
    obtain ⟨h1, h2, h3, h4⟩ := child_gt t x (theChild t x) hcm
    exact ihx h2
  | case2 x hx =>
    intro hxn
    rw [downLm_of_cc_ne t x hx]
    exact hxn

/-- Any strict descendant relation passes through a child: if `i` is a
strict ancestor of `k`, some child of `i` is an ancestor of `k`. -/
theorem anc_step (t : SkelTree) (i k : ℕ) (hk : k < t.n)
    (hik : anc t i k) (hne : k ≠ i) :
    ∃ c, c ∈ children t i ∧ anc t c k := by
  obtain ⟨E, hE⟩ := anc_suffix t k i hik
  have hEne : E ≠ [] := by
    intro h
    subst h
    simp only [List.nil_append] at hE
    have h1 := headD_chain t k
    have h2 := headD_chain t i
    rw [hE, h2] at h1
    exact hne h1.symm
  refine ⟨E.getLast hEne, ?_, ?_⟩
  · have hjunc := mem_adjPairs_junction E (chain t i) hEne (chain_ne_nil t i)
    rw [headD_chain] at hjunc
    rw [← hE] at hjunc
    rw [adjPairs_chain] at hjunc
    rw [List.mem_map] at hjunc
    obtain ⟨j, hj, hjeq⟩ := hjunc
    have hj1 : j = E.getLast hEne := by
      have := congrArg Prod.fst hjeq
      simpa using this
    have hj2 : t.parent j = i := by
      have := congrArg Prod.snd hjeq
      simpa using this
    subst hj1
    have hmemk : E.getLast hEne ∈ chain t k := by
      rw [hE]
      exact List.mem_append_left _ (List.getLast_mem hEne)
    have hlek := mem_chain_le t k (E.getLast hEne) hmemk
    have hne0 : E.getLast hEne ≠ 0 := by
      intro h0
      have h0E : (0 : ℕ) ∈ E := by
        rw [← h0]
        exact List.getLast_mem hEne
      have h0a : (0 : ℕ) ∈ chain t i := zero_mem_chain t i
      have hnd := chain_nodup t k
      rw [hE] at hnd
      exact (List.disjoint_of_nodup_append hnd) h0E h0a
    rw [mem_children]
    exact ⟨by omega, hne0, hj2⟩
  · unfold anc
    rw [hE]
    exact List.mem_append_left _ (List.getLast_mem hEne)

/-- No landmark sits strictly between `i` and `downLm t i`. -/
theorem downLm_between (t : SkelTree) :
    ∀ i, i < t.n → ∀ k, anc t i k → anc t k (downLm t i) →
      k ≠ downLm t i → childCount t k = 1 := by
  intro i
  induction i using downLm.induct t with
  | case1 x hx ihx =>
    intro hxn k hxk hkw hkne
    rw [downLm_of_cc_eq t x hx] at hkw hkne
    by_cases hkx : k = x
    · subst hkx
      exact hx
    · have hcn : theChild t x < t.n := by
        have hcm := (theChild_spec t x hx).1
        obtain ⟨h1', h2', h3', h4'⟩ := child_gt t x (theChild t x) hcm
        exact h2'
      have hkn : k < t.n := by
        have h1 := anc_le t hkw
        have h2 := downLm_lt_n t (theChild t x) hcn
        omega
      obtain ⟨c, hcmem, hck⟩ := anc_step t x k hkn hxk hkx
      have hcth : c = theChild t x := (theChild_spec t x hx).2 c hcmem
      subst hcth
      exact ihx hcn k hck hkw hkne
  | case2 x hx =>
    intro hxn k hxk hkw hkne
    rw [downLm_of_cc_ne t x hx] at hkw hkne
    have := anc_antisymm t hxk hkw
    exact absurd this.symm hkne

theorem downLm_not_anc_Astar (t : SkelTree) (i : ℕ) (h0 : 0 < i)
    (hn : i < t.n) : ¬ anc t i (Astar t (downLm t i)) := by
  intro hanc
  by_cases hsb : strictAncsBifs t (downLm t i) = []
  · have hA := (Astar_spec_none t (downLm t i) hsb).1
    rw [hA] at hanc
    unfold anc at hanc
    rw [chain_zero] at hanc
    simp at hanc
    omega
  · obtain ⟨hcc, hancA, hneA, _⟩ := Astar_spec_some t (downLm t i) hsb
    have := downLm_between t i hn (Astar t (downLm t i)) hanc hancA hneA
    omega

theorem downLm_unique (t : SkelTree) :
    ∀ i, 0 < i → i < t.n →
      ∀ v, v < t.n → childCount t v ≠ 1 → anc t i v →
        ¬ anc t i (Astar t v) → v = downLm t i := by
  intro i
  induction i using downLm.induct t with
  | case1 x hx ihx =>
    intro h0 hn v hvn hvcc hxv hnA
    have hvx : v ≠ x := by
      intro h
      subst h
      exact hvcc hx
    have hcm := (theChild_spec t x hx).1
    obtain ⟨hg1, hg2, hg3, hg4⟩ := child_gt t x (theChild t x) hcm
    obtain ⟨c, hcmem, hcv⟩ := anc_step t x v hvn hxv hvx
    have hcth : c = theChild t x := (theChild_spec t x hx).2 c hcmem
    subst hcth
    rw [downLm_of_cc_eq t x hx]
    have hxc : anc t x (theChild t x) := by
      have hpa := anc_parent t (theChild t x) hg3
      rw [hg4] at hpa
      exact hpa
    have hnAc : ¬ anc t (theChild t x) (Astar t v) := by
      intro hca
      exact hnA (anc_trans t hxc hca)
    exact ihx (by omega) hg2 v hvn hvcc hcv hnAc
  | case2 x hx =>
    intro h0 hn v hvn hvcc hxv hnA
    rw [downLm_of_cc_ne t x hx]
    by_cases hvx : v = x
    · exact hvx
    · exfalso
      by_cases hcx : 1 < childCount t x
      · have hsb : strictAncsBifs t v ≠ [] := by
          intro hemp
          have := (Astar_spec_none t v hemp).2 x hxv
            (fun h => hvx h.symm) hcx
          exact this
        obtain ⟨_, _, _, hmax⟩ := Astar_spec_some t v hsb
        exact hnA (hmax x hcx hxv (fun h => hvx h.symm))
      · have hcc0 : childCount t x = 0 := by omega
        obtain ⟨c, hcmem, _⟩ := anc_step t x v hvn hxv hvx
        have : (children t x).length = 0 := hcc0
        rw [List.length_eq_zero] at this
        rw [this] at hcmem
        simp at hcmem

theorem anc_zero_iff (t : SkelTree) (j : ℕ) : anc t j 0 ↔ j = 0 := by
  unfold anc
  rw [chain_zero]
  simp

theorem mem_sp_root (t : SkelTree) (w j : ℕ) :
    j ∈ shortestPath t 0 w ↔ anc t j w := by
  obtain ⟨D, hD⟩ := anc_suffix t w 0 (anc_zero t w)
  rw [mem_sp_anc t 0 w D hD]
  constructor
  · rintro (rfl | ⟨h1, _⟩)
    · exact anc_zero t w
    · exact h1
  · intro h
    by_cases hj : j = 0
    · exact Or.inl hj
    · exact Or.inr ⟨h, fun hj0 => hj ((anc_zero_iff t j).mp hj0)⟩

theorem Astar_anc (t : SkelTree) (v : ℕ) : anc t (Astar t v) v := by
  by_cases hsb : strictAncsBifs t v = []
  · rw [(Astar_spec_none t v hsb).1]
    exact anc_zero t v
  · exact (Astar_spec_some t v hsb).2.1

/-- The inner computation of the bifurcation loop produces exactly the
segment from the nearest bifurcation ancestor (or the root). -/
theorem bif_branch_iff (t : SkelTree) (w : ℕ) (hw : w < t.n)
    (hwcc : 1 < childCount t w) (s : List ℕ) :
    (s ∈ (if ((bifurcations t).filter (fun b =>
          decide (b ∈ shortestPath t 0 w ∧ b ≠ w))).isEmpty then
        [shortestPath t 0 w]
      else
        ((bifurcations t).filter (fun b =>
            decide (b ∈ shortestPath t 0 w ∧ b ≠ w))).filterMap
          (fun b =>
            if ((bifurcations t).filter (fun bi =>
                decide (bi ∈ shortestPath t b w ∧ bi ≠ w ∧
                  bi ≠ b))).isEmpty then
              some (shortestPath t b w)
            else none))) ↔
      s = shortestPath t (Astar t w) w := by
  have hbs_iff : ∀ b, b ∈ (bifurcations t).filter (fun b =>
      decide (b ∈ shortestPath t 0 w ∧ b ≠ w)) ↔
      b ∈ strictAncsBifs t w := by
    intro b
    rw [List.mem_filter, mem_bifurcations, mem_strictAncsBifs]
    rw [decide_eq_true_eq, mem_sp_root]
    constructor
    · rintro ⟨⟨h1, h2⟩, h3, h4⟩
      exact ⟨h3, h4, h2⟩
    · rintro ⟨h1, h2, h3⟩
      have hble := anc_le t h1
      exact ⟨⟨by omega, h3⟩, h1, h2⟩
  by_cases hsb : strictAncsBifs t w = []
  · have hbs : ((bifurcations t).filter (fun b =>
        decide (b ∈ shortestPath t 0 w ∧ b ≠ w))) = [] := by
      rw [List.eq_nil_iff_forall_not_mem]
      intro b hb
      rw [hbs_iff b, hsb] at hb
      simp at hb
    rw [hbs]
    simp only [List.isEmpty_nil, if_true, List.mem_singleton]
    rw [(Astar_spec_none t w hsb).1]
  · have hbs : ¬ ((bifurcations t).filter (fun b =>
        decide (b ∈ shortestPath t 0 w ∧ b ≠ w))).isEmpty = true := by
      rw [List.isEmpty_iff]
      intro hemp
      apply hsb
      rw [List.eq_nil_iff_forall_not_mem]
      intro b hb
      rw [← hbs_iff b, hemp] at hb
      simp at hb
    rw [if_neg hbs, List.mem_filterMap]
    obtain ⟨hAcc, hAanc, hAne, hAmax⟩ := Astar_spec_some t w hsb
    constructor
    · rintro ⟨b, hb, hbeq⟩
      rw [hbs_iff b] at hb
      obtain ⟨hbanc, hbne, hbcc⟩ := (mem_strictAncsBifs t w b).mp hb
      by_cases hbfcs : ((bifurcations t).filter (fun bi =>
          decide (bi ∈ shortestPath t b w ∧ bi ≠ w ∧ bi ≠ b))).isEmpty
      · rw [if_pos hbfcs] at hbeq
        have hbeq' : s = shortestPath t b w := by
          injection hbeq with h
          exact h.symm
        have hbA : b = Astar t w := by
          by_contra hne
          have hbAanc : anc t b (Astar t w) := hAmax b hbcc hbanc hbne
          have hAmem : Astar t w ∈ (bifurcations t).filter (fun bi =>
              decide (bi ∈ shortestPath t b w ∧ bi ≠ w ∧ bi ≠ b)) := by
            rw [List.mem_filter, mem_bifurcations, decide_eq_true_eq]
            obtain ⟨Db, hDb⟩ := anc_suffix t w b hbanc
            rw [mem_sp_anc t b w Db hDb]
            have hAle := anc_le t hAanc
            refine ⟨⟨by omega, hAcc⟩, ?_, hAne, fun h => hne h.symm⟩
            right
            refine ⟨hAanc, ?_⟩
            intro hAb
            exact hne (anc_antisymm t hAb hbAanc).symm
          rw [List.isEmpty_iff] at hbfcs
          rw [hbfcs] at hAmem
          simp at hAmem
        rw [hbeq', hbA]
      · rw [if_neg hbfcs] at hbeq
        exact absurd hbeq (by simp)
    · intro hs
      refine ⟨Astar t w, ?_, ?_⟩
      · rw [hbs_iff (Astar t w), mem_strictAncsBifs]
        exact ⟨hAanc, hAne, hAcc⟩
      · have hbfcs : ((bifurcations t).filter (fun bi =>
            decide (bi ∈ shortestPath t (Astar t w) w ∧ bi ≠ w ∧
              bi ≠ Astar t w))).isEmpty = true := by
          rw [List.isEmpty_iff, List.eq_nil_iff_forall_not_mem]
          intro bi hbi
          rw [List.mem_filter, mem_bifurcations, decide_eq_true_eq] at hbi
          obtain ⟨⟨hbin, hbicc⟩, hbisp, hbiw, hbiA⟩ := hbi
          obtain ⟨DA, hDA⟩ := anc_suffix t w (Astar t w) hAanc
          rw [mem_sp_anc t (Astar t w) w DA hDA] at hbisp
          rcases hbisp with h | ⟨h1, h2⟩
          · exact hbiA h
          · exact h2 (hAmax bi hbicc h1 hbiw)
        rw [if_pos hbfcs, hs]

/-- The inner computation of the leaf loop produces exactly the
segment from the nearest bifurcation ancestor (or the root). -/
theorem leaf_branch_iff (t : SkelTree) (lf : ℕ) (hlf : lf < t.n)
    (hlcc : childCount t lf = 0) (s : List ℕ) :
    (s ∈ (if ((bifurcations t).filter (fun b =>
          decide (b ∈ shortestPath t 0 lf))).isEmpty then
        [shortestPath t 0 lf]
      else
        ((bifurcations t).filter (fun b =>
            decide (b ∈ shortestPath t 0 lf))).filterMap
          (fun b =>
            if ((bifurcations t).filter (fun bi =>
                decide (bi ∈ shortestPath t b lf ∧ bi ≠ b))).isEmpty then
              some (shortestPath t b lf)
            else none))) ↔
      s = shortestPath t (Astar t lf) lf := by
  have hbs_iff : ∀ b, b ∈ (bifurcations t).filter (fun b =>
      decide (b ∈ shortestPath t 0 lf)) ↔
      b ∈ strictAncsBifs t lf := by
    intro b
    rw [List.mem_filter, mem_bifurcations, mem_strictAncsBifs]
    rw [decide_eq_true_eq, mem_sp_root]
    constructor
    · rintro ⟨⟨h1, h2⟩, h3⟩
      have hbne : b ≠ lf := by
        intro h
        subst h
        omega
      exact ⟨h3, hbne, h2⟩
    · rintro ⟨h1, h2, h3⟩
      have hble := anc_le t h1
      exact ⟨⟨by omega, h3⟩, h1⟩
  by_cases hsb : strictAncsBifs t lf = []
  · have hbs : ((bifurcations t).filter (fun b =>
        decide (b ∈ shortestPath t 0 lf))) = [] := by
      rw [List.eq_nil_iff_forall_not_mem]
      intro b hb
      rw [hbs_iff b, hsb] at hb
      simp at hb
    rw [hbs]
    simp only [List.isEmpty_nil, if_true, List.mem_singleton]
    rw [(Astar_spec_none t lf hsb).1]
  · have hbs : ¬ ((bifurcations t).filter (fun b =>
        decide (b ∈ shortestPath t 0 lf))).isEmpty = true := by
      rw [List.isEmpty_iff]
      intro hemp
      apply hsb
      rw [List.eq_nil_iff_forall_not_mem]
      intro b hb
      rw [← hbs_iff b, hemp] at hb
      simp at hb
    rw [if_neg hbs, List.mem_filterMap]
    obtain ⟨hAcc, hAanc, hAne, hAmax⟩ := Astar_spec_some t lf hsb
    constructor
    · rintro ⟨b, hb, hbeq⟩
      rw [hbs_iff b] at hb
      obtain ⟨hbanc, hbne, hbcc⟩ := (mem_strictAncsBifs t lf b).mp hb
      by_cases hbfcs : ((bifurcations t).filter (fun bi =>
          decide (bi ∈ shortestPath t b lf ∧ bi ≠ b))).isEmpty
      · rw [if_pos hbfcs] at hbeq
        have hbeq' : s = shortestPath t b lf := by
          injection hbeq with h
          exact h.symm
        have hbA : b = Astar t lf := by
          by_contra hne
          have hbAanc : anc t b (Astar t lf) := hAmax b hbcc hbanc hbne
          have hAmem : Astar t lf ∈ (bifurcations t).filter (fun bi =>
              decide (bi ∈ shortestPath t b lf ∧ bi ≠ b)) := by
            rw [List.mem_filter, mem_bifurcations, decide_eq_true_eq]
            obtain ⟨Db, hDb⟩ := anc_suffix t lf b hbanc
            rw [mem_sp_anc t b lf Db hDb]
            have hAle := anc_le t hAanc
            refine ⟨⟨by omega, hAcc⟩, ?_, fun h => hne h.symm⟩
            right
            refine ⟨hAanc, ?_⟩
            intro hAb
            exact hne (anc_antisymm t hAb hbAanc).symm
          rw [List.isEmpty_iff] at hbfcs
          rw [hbfcs] at hAmem
          simp at hAmem
        rw [hbeq', hbA]
      · rw [if_neg hbfcs] at hbeq
        exact absurd hbeq (by simp)
    · intro hs
      refine ⟨Astar t lf, ?_, ?_⟩
      · rw [hbs_iff (Astar t lf), mem_strictAncsBifs]
        exact ⟨hAanc, hAne, hAcc⟩
      · have hbfcs : ((bifurcations t).filter (fun bi =>
            decide (bi ∈ shortestPath t (Astar t lf) lf ∧
              bi ≠ Astar t lf))).isEmpty = true := by
          rw [List.isEmpty_iff, List.eq_nil_iff_forall_not_mem]
          intro bi hbi
          rw [List.mem_filter, mem_bifurcations, decide_eq_true_eq] at hbi
          obtain ⟨⟨hbin, hbicc⟩, hbisp, hbiA⟩ := hbi
          obtain ⟨DA, hDA⟩ := anc_suffix t lf (Astar t lf) hAanc
          rw [mem_sp_anc t (Astar t lf) lf DA hDA] at hbisp
          rcases hbisp with h | ⟨h1, h2⟩
          · exact hbiA h
          · have hbiw : bi ≠ lf := by
              intro h
              subst h
              omega
            exact h2 (hAmax bi hbicc h1 hbiw)
        rw [if_pos hbfcs, hs]

/-- Membership in `unique_neurites` from the root: the segments are
exactly the paths from each landmark's nearest bifurcation ancestor
(or the root) down to that landmark. -/
theorem mem_uniqueNeurites_iff (t : SkelTree) (s : List ℕ) :
    s ∈ uniqueNeurites t 0 ↔
      ∃ v, ((v < t.n ∧ 1 < childCount t v ∧ v ≠ 0) ∨
          (v < t.n ∧ childCount t v = 0)) ∧
        s = shortestPath t (Astar t v) v := by
  unfold uniqueNeurites
  rw [List.mem_dedup, List.mem_append]
  unfold neuritesFromBifs neuritesFromLeaves
  rw [List.mem_flatMap, List.mem_flatMap]
  constructor
  · rintro (⟨w, hw, hs⟩ | ⟨lf, hlf, hs⟩)
    · rw [List.mem_filter, mem_bifurcations, decide_eq_true_eq] at hw
      obtain ⟨⟨hwn, hwcc⟩, hw0⟩ := hw
      rw [bif_branch_iff t w hwn hwcc s] at hs
      exact ⟨w, Or.inl ⟨hwn, hwcc, hw0⟩, hs⟩
    · rw [mem_leaves] at hlf
      obtain ⟨hln, hlcc⟩ := hlf
      rw [leaf_branch_iff t lf hln hlcc s] at hs
      exact ⟨lf, Or.inr ⟨hln, hlcc⟩, hs⟩
  · rintro ⟨v, (⟨hvn, hvcc, hv0⟩ | ⟨hvn, hvcc⟩), hs⟩
    · left
      refine ⟨v, ?_, ?_⟩
      · rw [List.mem_filter, mem_bifurcations, decide_eq_true_eq]
        exact ⟨⟨hvn, hvcc⟩, hv0⟩
      · rw [bif_branch_iff t v hvn hvcc s]
        exact hs
    · right
      refine ⟨v, ?_, ?_⟩
      · rw [mem_leaves]
        exact ⟨hvn, hvcc⟩
      · rw [leaf_branch_iff t v hvn hvcc s]
        exact hs

/-- Claim C1 (amended: enumeration from the tree's root, the default
base): every tree edge is covered by exactly one of the segments
returned by `unique_neurites` — no edge appears in two distinct
returned segments, and no edge is absent from all of them. -/
theorem unique_neurites_partition (t : SkelTree) (i : ℕ)
    (h0 : 0 < i) (hn : i < t.n) :
    (∃ s ∈ uniqueNeurites t 0, covers t s i) ∧
      ∀ s₁ ∈ uniqueNeurites t 0, ∀ s₂ ∈ uniqueNeurites t 0,
        covers t s₁ i → covers t s₂ i → s₁ = s₂ := by
  have hcov_iff : ∀ v, v < t.n → childCount t v ≠ 1 →
      (covers t (shortestPath t (Astar t v) v) i ↔
        (anc t i v ∧ ¬ anc t i (Astar t v))) := by
    intro v hvn hvcc
    obtain ⟨D, hD⟩ := anc_suffix t v (Astar t v) (Astar_anc t v)
    rw [covers_sp t (Astar t v) v D hD i h0]
    exact mem_strict_part t hD i
  constructor
  · refine ⟨shortestPath t (Astar t (downLm t i)) (downLm t i), ?_, ?_⟩
    · rw [mem_uniqueNeurites_iff]
      refine ⟨downLm t i, ?_, rfl⟩
      have hwn := downLm_lt_n t i hn
      have hwcc := downLm_cc t i
      have hw0 : downLm t i ≠ 0 := by
        have := anc_le t (downLm_anc t i)
        omega
      by_cases hc : childCount t (downLm t i) = 0
      · exact Or.inr ⟨hwn, hc⟩
      · exact Or.inl ⟨hwn, by omega, hw0⟩
    · rw [hcov_iff (downLm t i) (downLm_lt_n t i hn) (downLm_cc t i)]
      exact ⟨downLm_anc t i, downLm_not_anc_Astar t i h0 hn⟩
  · intro s₁ hs₁ s₂ hs₂ hc₁ hc₂
    rw [mem_uniqueNeurites_iff] at hs₁ hs₂
    obtain ⟨v₁, hv₁, rfl⟩ := hs₁
    obtain ⟨v₂, hv₂, rfl⟩ := hs₂
    have hv₁n : v₁ < t.n := by rcases hv₁ with ⟨h, _, _⟩ | ⟨h, _⟩ <;> exact h
    have hv₂n : v₂ < t.n := by rcases hv₂ with ⟨h, _, _⟩ | ⟨h, _⟩ <;> exact h
    have hv₁cc : childCount t v₁ ≠ 1 := by
      rcases hv₁ with ⟨_, h, _⟩ | ⟨_, h⟩ <;> omega
    have hv₂cc : childCount t v₂ ≠ 1 := by
      rcases hv₂ with ⟨_, h, _⟩ | ⟨_, h⟩ <;> omega
    rw [hcov_iff v₁ hv₁n hv₁cc] at hc₁
    rw [hcov_iff v₂ hv₂n hv₂cc] at hc₂
    have he₁ : v₁ = downLm t i :=
      downLm_unique t i h0 hn v₁ hv₁n hv₁cc hc₁.1 hc₁.2
    have he₂ : v₂ = downLm t i :=
      downLm_unique t i h0 hn v₂ hv₂n hv₂cc hc₂.1 hc₂.2
    rw [he₁, he₂]

/-- Witness for C1 (amended) on the 3-node path tree at edge 1. -/
theorem unique_neurites_partition_witness :
    (0 : ℕ) < 1 ∧ (1 : ℕ) < (lineTree 3).n ∧
      ((∃ s ∈ uniqueNeurites (lineTree 3) 0, covers (lineTree 3) s 1) ∧
        ∀ s₁ ∈ uniqueNeurites (lineTree 3) 0,
          ∀ s₂ ∈ uniqueNeurites (lineTree 3) 0,
            covers (lineTree 3) s₁ 1 → covers (lineTree 3) s₂ 1 →
              s₁ = s₂) :=
  ⟨by decide, by decide,
    unique_neurites_partition (lineTree 3) 1 (by decide) (by decide)⟩

/-- Counterexample to C1 as stated (for every choice of base): on the
path tree `0 → 1 → 2` with base node 1, the only returned segment is
`[1, 2]`, so the tree edge from node 0 to node 1 is absent from every
returned segment. -/
theorem unique_neurites_partition_counterexample :
    uniqueNeurites (lineTree 3) 1 = [[1, 2]] ∧
      ¬ covers (lineTree 3) [1, 2] 1 := by
  constructor
  · decide
  · decide

/-! ## Path-length aggregators (morphology.py 382-410)

`distance` is again passed as the parameter `dfn`; on the single-node
tree both aggregators are 0 for every distance function, so the
parametrisation is harmless. -/

/-- `total_pathlength(neuron)`: the summed consecutive-node distances
over all neurites enumerated from the root. -/
def total_pathlength (t : SkelTree) (coords : ℕ → Pt)
    (dfn : Pt → Pt → ℚ) : ℚ :=
  ((uniqueNeurites t 0).map (fun p => pathSum coords dfn p)).sum

/-- `root_to_leaf_pathlengths(neuron)`: `None` when there are no
leaves, otherwise the list of root-to-leaf path lengths. -/
def root_to_leaf_pathlengths (t : SkelTree) (coords : ℕ → Pt)
    (dfn : Pt → Pt → ℚ) : Option (List ℚ) :=
  if 0 < (leaves t).length then
    some ((leaves t).map (fun lf => path_length t coords dfn 0 lf))
  else none

/-- Python's `max` on a nonempty list (0 for the empty list, which the
source never reaches). -/
def listMax : List ℚ → ℚ
  | [] => 0
  | x :: xs => xs.foldl max x

/-- `longest_pathlength(neuron)`, morphology.py 396-410. -/
def longest_pathlength (t : SkelTree) (coords : ℕ → Pt)
    (dfn : Pt → Pt → ℚ) : ℚ :=
  if t.n = 1 then 0
  else if (bifurcations t).length = 0 then
    match root_to_leaf_pathlengths t coords dfn with
    | some ps => if ps.isEmpty then 0 else listMax ps
    | none => 0
  else listMax ((uniqueNeurites t 0).map (fun p => pathSum coords dfn p))

/-- Claim C7 (amended): on a single-node tree, `unique_neurites`
returns one degenerate single-node segment (the root alone, covering
no edges) rather than an empty list, and the downstream path-length
aggregators `total_pathlength` and `longest_pathlength` both return 0
for every coordinate map and distance function, raising no error. -/
theorem single_node_tree_spec (coords : ℕ → Pt) (dfn : Pt → Pt → ℚ) :
    uniqueNeurites (lineTree 1) 0 = [[0]] ∧
      (∀ s ∈ uniqueNeurites (lineTree 1) 0, adjPairs s = []) ∧
      total_pathlength (lineTree 1) coords dfn = 0 ∧
      longest_pathlength (lineTree 1) coords dfn = 0 := by
  have hun : uniqueNeurites (lineTree 1) 0 = [[0]] := by decide
  refine ⟨hun, ?_, ?_, ?_⟩
  · intro s hs
    rw [hun] at hs
    rw [List.mem_singleton] at hs
    subst hs
    rfl
  · unfold total_pathlength
    rw [hun]
    simp [pathSum]
  · unfold longest_pathlength
    norm_num [lineTree]

/-- Counterexample to C7 as stated: on a single-node tree the
decomposition is not empty — it contains the one-node segment `[0]`. -/
theorem single_node_tree_counterexample :
    uniqueNeurites (lineTree 1) 0 ≠ [] := by decide

/-! ## `gaussian_smooth_neuron` (morphology.py 588-605)

The function deep-copies the neuron's skeleton
(`sk = copy.deepcopy(n.skeleton)`) and then mutates the copy's
vertices in place.  To state that the input is not mutated, skeletons
live in an explicit heap of vertex maps: `deepcopy` allocates a fresh
reference with the same content, and every write goes to a reference.
The neuron's node map (`coords`) and edge map (the tree) are only ever
read by the source, so they stay pure fields. -/

/-- A heap of skeleton vertex maps (`data ref nodeId` is the position
of `nodeId` in the skeleton at `ref`); `next` is the next fresh
reference. -/
structure Heap where
  data : ℕ → ℕ → Pt
  next : ℕ

/-- `copy.deepcopy`: allocate a fresh reference holding a copy of the
given content. -/
def heapAlloc (h : Heap) (s : ℕ → Pt) : Heap × ℕ :=
  (⟨fun r => if r = h.next then s else h.data r, h.next + 1⟩, h.next)

/-- `sk['vertices'][nid] = position`: write one vertex of the skeleton
at reference `r`. -/
def heapWrite (h : Heap) (r nodeId : ℕ) (p : Pt) : Heap :=
  ⟨fun r' => if r' = r then
      (fun id' => if id' = nodeId then p else h.data r id')
    else h.data r', h.next⟩

/-- A neuron as seen by `gaussian_smooth_neuron`: its tree topology,
its node coordinate map, and the heap reference of its skeleton. -/
structure NeuronH where
  tree : SkelTree
  coords : ℕ → Pt
  skelRef : ℕ

/-- The inner loop `for i in xrange(len(un)): ... v['x'] = s[0] ...`:
write the smoothed points of one neurite into the skeleton copy. -/
def writePoints (skRef : ℕ) (un : List ℕ) (spts : List Pt)
    (h : Heap) : Heap :=
  (List.range un.length).foldl
    (fun hh i => heapWrite hh skRef (un.getD i 0) (spts.getD i ptZero)) h

/-- `gaussian_smooth_neuron(n, sigma, min_effect, fix_axes)`: replace a
`None` `fix_axes` by `[]`, deep-copy the skeleton, smooth every
neurite of `unique_neurites(n)` and write the results into the copy,
returning it. -/
def gaussian_smooth_neuron_heap (n : NeuronH) (maxDist : ℚ) (g : ℚ → ℚ)
    (fix_axes : Option (List ℕ)) (h : Heap) : Heap × ℕ :=
  let fa : List ℕ := match fix_axes with
    | none => []
    | some l => l
  let allocRes := heapAlloc h (h.data n.skelRef)
  let h2 := (uniqueNeurites n.tree 0).foldl
    (fun hh un =>
      writePoints allocRes.2 un
        (gaussian_smooth_points (un.map n.coords) maxDist g (some fa)) hh)
    allocRes.1
  (h2, allocRes.2)

theorem heapWrite_data_other (h : Heap) (r nodeId : ℕ) (p : Pt)
    (r' : ℕ) (hne : r' ≠ r) : (heapWrite h r nodeId p).data r' = h.data r' := by
  simp [heapWrite, hne]

theorem foldl_heapWrite_preserve (skRef : ℕ) (f : ℕ → ℕ) (g' : ℕ → Pt) :
    ∀ (l : List ℕ) (h : Heap) (r' : ℕ), r' ≠ skRef →
      ((l.foldl (fun hh i => heapWrite hh skRef (f i) (g' i)) h).data r') =
        h.data r' := by
  intro l
  induction l with
  | nil =>
    intro h r' hne
    rfl
  | cons i l' ih =>
    intro h r' hne
    rw [List.foldl_cons]
    rw [ih (heapWrite h skRef (f i) (g' i)) r' hne]
    exact heapWrite_data_other h skRef (f i) (g' i) r' hne

theorem writePoints_preserve (skRef : ℕ) (un : List ℕ) (spts : List Pt)
    (h : Heap) (r' : ℕ) (hne : r' ≠ skRef) :
    (writePoints skRef un spts h).data r' = h.data r' :=
  foldl_heapWrite_preserve skRef (fun i => un.getD i 0)
    (fun i => spts.getD i ptZero) (List.range un.length) h r' hne

theorem foldl_writePoints_preserve (skRef : ℕ)
    (F : List ℕ → List Pt) :
    ∀ (uns : List (List ℕ)) (h : Heap) (r' : ℕ), r' ≠ skRef →
      ((uns.foldl (fun hh un => writePoints skRef un (F un) hh) h).data r') =
        h.data r' := by
  intro uns
  induction uns with
  | nil =>
    intro h r' hne
    rfl
  | cons un uns' ih =>
    intro h r' hne
    rw [List.foldl_cons]
    rw [ih (writePoints skRef un (F un) h) r' hne]
    exact writePoints_preserve skRef un (F un) h r' hne

/-- Claim C9: `gaussian_smooth_neuron` writes the smoothed coordinates
into a freshly allocated deep copy of the neuron's skeleton and
returns that copy: the skeleton stored at the input neuron's own
reference is unchanged, and the returned reference is distinct from
the input's (the neuron's node and edge maps are read-only values in
the embedding, as the source only reads them). -/
theorem gaussian_smooth_neuron_no_mutation (n : NeuronH) (maxDist : ℚ)
    (g : ℚ → ℚ) (fix_axes : Option (List ℕ)) (h : Heap)
    (href : n.skelRef < h.next) :
    (gaussian_smooth_neuron_heap n maxDist g fix_axes h).1.data n.skelRef =
      h.data n.skelRef ∧
    (gaussian_smooth_neuron_heap n maxDist g fix_axes h).2 ≠ n.skelRef := by
  have hne : n.skelRef ≠ h.next := by omega
  constructor
  · unfold gaussian_smooth_neuron_heap
    rw [foldl_writePoints_preserve]
    · unfold heapAlloc
      simp [hne]
    · exact hne
  · unfold gaussian_smooth_neuron_heap heapAlloc
    simpa using hne.symm

/-- Witness for C9 on a concrete one-node neuron and heap. -/
theorem gaussian_smooth_neuron_no_mutation_witness :
    (0 : ℕ) < 1 ∧
      (gaussian_smooth_neuron_heap
          ⟨lineTree 1, fun _ => ptZero, 0⟩ 4 (fun _ => 1) none
          ⟨fun _ _ => ptZero, 1⟩).2 ≠ 0 :=
  ⟨by decide,
    (gaussian_smooth_neuron_no_mutation ⟨lineTree 1, fun _ => ptZero, 0⟩ 4
      (fun _ => 1) none ⟨fun _ _ => ptZero, 1⟩ (by decide)).2⟩

theorem map_getD {α β : Type} [Inhabited β] (l : List α) (f : α → β)
    (i : ℕ) (d : α) (db : β) (hi : i < l.length) :
    (l.map f).getD i db = f (l.getD i d) := by
  rw [List.getD_eq_getElem?_getD, List.getElem?_map]
  rw [List.getElem?_eq_getElem hi]
  rw [List.getD_eq_getElem?_getD, List.getElem?_eq_getElem hi]
  rfl

theorem writePoints_z_inv (skRef : ℕ) (un : List ℕ) (spts : List Pt)
    (c : ℕ → Pt)
    (hspts : ∀ i, i < un.length →
      (spts.getD i ptZero).z = (c (un.getD i 0)).z) :
    ∀ (l : List ℕ) (hh : Heap),
      (∀ i ∈ l, i < un.length) →
      (∀ id, (hh.data skRef id).z = (c id).z) →
      ∀ id,
        (((l.foldl (fun hh2 i =>
            heapWrite hh2 skRef (un.getD i 0) (spts.getD i ptZero)) hh)).data
          skRef id).z = (c id).z := by
  intro l
  induction l with
  | nil =>
    intro hh hl hinv id
    exact hinv id
  | cons i l' ih =>
    intro hh hl hinv id
    rw [List.foldl_cons]
    refine ih (heapWrite hh skRef (un.getD i 0) (spts.getD i ptZero))
      (fun j hj => hl j (List.mem_cons_of_mem i hj)) ?_ id
    intro id'
    have hred : (heapWrite hh skRef (un.getD i 0)
        (spts.getD i ptZero)).data skRef id' =
        if id' = un.getD i 0 then spts.getD i ptZero
        else hh.data skRef id' := by
      unfold heapWrite
      simp
    rw [hred]
    by_cases hid : id' = un.getD i 0
    · rw [if_pos hid, hid]
      exact hspts i (hl i (List.mem_cons_self i l'))
    · rw [if_neg hid]
      exact hinv id'

theorem writePoints_z (skRef : ℕ) (un : List ℕ) (spts : List Pt)
    (c : ℕ → Pt) (hh : Heap)
    (hspts : ∀ i, i < un.length →
      (spts.getD i ptZero).z = (c (un.getD i 0)).z)
    (hinv : ∀ id, (hh.data skRef id).z = (c id).z) :
    ∀ id, ((writePoints skRef un spts hh).data skRef id).z = (c id).z := by
  intro id
  exact writePoints_z_inv skRef un spts c hspts (List.range un.length) hh
    (fun i hi => List.mem_range.mp hi) hinv id

theorem foldl_writePoints_z (skRef : ℕ) (c : ℕ → Pt) (maxDist : ℚ)
    (g : ℚ → ℚ) (fa : List ℕ) :
    ∀ (uns : List (List ℕ)) (hh : Heap),
      (∀ id, (hh.data skRef id).z = (c id).z) →
      ∀ id,
        (((uns.foldl (fun hh2 un =>
            writePoints skRef un
              (gaussian_smooth_points (un.map c) maxDist g (some fa))
              hh2) hh)).data skRef id).z = (c id).z := by
  intro uns
  induction uns with
  | nil =>
    intro hh hinv id
    exact hinv id
  | cons un uns' ih =>
    intro hh hinv id
    rw [List.foldl_cons]
    refine ih _ ?_ id
    refine writePoints_z skRef un _ c hh ?_ hinv
    intro i hi
    have hlen : i < (un.map c).length := by
      rw [List.length_map]
      exact hi
    rw [gsp_z_pinned (un.map c) maxDist g fa i hlen]
    rw [map_getD un c i 0 ptZero hi]

/-- Claim C6: any non-`None` `fix_axes` (whatever axes it lists,
including the empty list) makes `gaussian_smooth_points` reset axis 2
of every smoothed point to its original value; `gaussian_smooth_neuron`
with its default `fix_axes = None` converts the argument to the empty
list before delegating, and therefore the skeleton it returns carries
the original z coordinate on every vertex. -/
theorem gaussian_fix_axes_forces_z :
    (∀ (pts : List Pt) (maxDist : ℚ) (g : ℚ → ℚ) (axs : List ℕ) (i : ℕ),
      i < pts.length →
      ((gaussian_smooth_points pts maxDist g (some axs)).getD i ptZero).z =
        (pts.getD i ptZero).z) ∧
    (∀ (n : NeuronH) (maxDist : ℚ) (g : ℚ → ℚ) (h : Heap),
      gaussian_smooth_neuron_heap n maxDist g none h =
        gaussian_smooth_neuron_heap n maxDist g (some []) h) ∧
    (∀ (n : NeuronH) (maxDist : ℚ) (g : ℚ → ℚ) (h : Heap),
      (∀ id, h.data n.skelRef id = n.coords id) →
      ∀ id,
        ((gaussian_smooth_neuron_heap n maxDist g none h).1.data
            (gaussian_smooth_neuron_heap n maxDist g none h).2 id).z =
          (n.coords id).z) := by
  refine ⟨gsp_z_pinned, fun n maxDist g h => rfl, ?_⟩
  intro n maxDist g h hwf id
  unfold gaussian_smooth_neuron_heap
  refine foldl_writePoints_z h.next n.coords maxDist g []
    (uniqueNeurites n.tree 0) _ ?_ id
  intro id'
  have hred : (heapAlloc h (h.data n.skelRef)).1.data h.next id' =
      h.data n.skelRef id' := by
    unfold heapAlloc
    simp
  rw [hred, hwf id']

/-- Witness for C6 at a concrete sequence and a concrete neuron. -/
theorem gaussian_fix_axes_forces_z_witness :
    (1 : ℕ) < ptsW.length ∧
      ((gaussian_smooth_points ptsW 4 (fun _ => 1) (some [])).getD 1
        ptZero).z = (ptsW.getD 1 ptZero).z ∧
      ((gaussian_smooth_neuron_heap ⟨lineTree 1, fun _ => ptZero, 0⟩ 4
            (fun _ => 1) none ⟨fun _ _ => ptZero, 1⟩).1.data
          (gaussian_smooth_neuron_heap ⟨lineTree 1, fun _ => ptZero, 0⟩ 4
            (fun _ => 1) none ⟨fun _ _ => ptZero, 1⟩).2 5).z =
        ((fun _ => ptZero) 5 : Pt).z :=
  ⟨by decide,
    gaussian_fix_axes_forces_z.1 ptsW 4 (fun _ => 1) [] 1 (by decide),
    gaussian_fix_axes_forces_z.2.2 ⟨lineTree 1, fun _ => ptZero, 0⟩ 4
      (fun _ => 1) ⟨fun _ _ => ptZero, 1⟩ (fun _ => rfl) 5⟩

/-- Witness for C7 (amended) at a concrete distance function. -/
theorem single_node_tree_spec_witness :
    total_pathlength (lineTree 1) (fun _ => ptZero) sqdist = 0 ∧
      longest_pathlength (lineTree 1) (fun _ => ptZero) sqdist = 0 ∧
      ([0] ∈ uniqueNeurites (lineTree 1) 0 ∧ adjPairs [0] = []) :=
  ⟨(single_node_tree_spec (fun _ => ptZero) sqdist).2.2.1,
    (single_node_tree_spec (fun _ => ptZero) sqdist).2.2.2,
    by decide,
    (single_node_tree_spec (fun _ => ptZero) sqdist).2.1 [0] (by decide)⟩
